import Mathlib

/-!
Verification of the reversible random number generator library.

This file gives a shallow embedding, in Lean, of the data model and the
operations of a C++ library of reversible pseudo-random number generators:
a reversible PCG engine (LCG state step with permuted output and a
precomputed multiplicative inverse of the multiplier), a reversible
Mersenne Twister (twist and its inverse untwist), uniform integer and real
distributions, a Ziggurat normal distribution and an exponential
distribution, together with the composite generator that binds an engine
to a distribution and tracks a signed position.

Machine integers are embedded as natural numbers with explicit reduction
modulo 2^w where the C++ arithmetic wraps.  Floating point values of the
distribution layer are embedded as exact rationals (the decimal literals
of the source read at face value), with real-number semantics for the
transcendental functions of the Ziggurat sampler.
-/

namespace Reverse

/-- The modulus of 64-bit unsigned arithmetic. -/
def W64 : ℕ := 2 ^ 64

/-- One step of the Splitmix64 generator, from the source `Splitmix64` function
call operator: the state advances by the golden-ratio increment and the output
is the xor-shift-multiply mix of the new state.  Returns the new state and the
output word. -/
def splitmixNext (x : ℕ) : ℕ × ℕ :=
  let x' := (x + 0x9e3779b97f4a7c15) % W64
  let z1 := ((x' ^^^ (x' >>> 30)) * 0xbf58476d1ce4e5b9) % W64
  let z2 := ((z1 ^^^ (z1 >>> 27)) * 0x94d049bb133111eb) % W64
  (x', z2 ^^^ (z2 >>> 31))

/-- State of the xoshiro256+ generator: four 64-bit words. -/
structure Xoshiro where
  s0 : ℕ
  s1 : ℕ
  s2 : ℕ
  s3 : ℕ
  deriving DecidableEq

/-- Seeding of `Xoshiro256` from a 64-bit integer: the four state words are
four successive Splitmix64 outputs (source `Xoshiro256::seed`). -/
def xoshiroSeedState (sd : ℕ) : Xoshiro :=
  let p0 := splitmixNext sd
  let p1 := splitmixNext p0.1
  let p2 := splitmixNext p1.1
  let p3 := splitmixNext p2.1
  ⟨p0.2, p1.2, p2.2, p3.2⟩

/-- 64-bit rotate left, from the source `rotl`. -/
def rotl64 (x k : ℕ) : ℕ :=
  ((x <<< k) % W64) ||| (x >>> (64 - k))

/-- One step of xoshiro256+, from the source `Xoshiro256::operator()`:
returns the new state and the output word `s0 + s3 mod 2^64`. -/
def xoshiroNext (s : Xoshiro) : Xoshiro × ℕ :=
  let result := (s.s0 + s.s3) % W64
  let t := (s.s1 <<< 17) % W64
  let s2a := s.s2 ^^^ s.s0
  let s3a := s.s3 ^^^ s.s1
  let s1a := s.s1 ^^^ s2a
  let s0a := s.s0 ^^^ s3a
  (⟨s0a, s1a, s2a ^^^ t, rotl64 s3a 45⟩, result)

/-- The xoshiro256+ state after `n` calls. -/
def xoshiroIter (s : Xoshiro) : ℕ → Xoshiro
  | 0 => s
  | n + 1 => (xoshiroNext (xoshiroIter s n)).1

/-- The `n`-th output word of xoshiro256+ started at state `s`. -/
def xoshiroStream (s : Xoshiro) (n : ℕ) : ℕ :=
  (xoshiroNext (xoshiroIter s n)).2

/-- The source `util::float64`: map a 64-bit word to the unit interval by
its top 53 bits, `(x >> 11) * 2^-53`, as an exact rational. -/
def float64Q (x : ℕ) : ℚ :=
  ((x >>> 11 : ℕ) : ℚ) * (1 / 2 ^ 53)

/-- The source `util::float32`: map a 32-bit word to the unit interval by
its top 24 bits, `(x >> 8) * 2^-24`, as an exact rational. -/
def float32Q (x : ℕ) : ℚ :=
  ((x >>> 8 : ℕ) : ℚ) * (1 / 2 ^ 24)

/-! ### PCG multiplier constants and their tabulated inverses

The inverses are the `Inverse` template specializations of `src/src/pcg.h`
(and `src/reverse.hpp`).  The 64-bit multiplier value also appears in the
source as `ReversibleMersenne::initialization_multiplier`. -/

/-- The PCG default 64-bit LCG multiplier. -/
def default_multiplier_u64 : ℕ := 6364136223846793005

/-- Modelled from the spec: the PCG default 128-bit LCG multiplier.  The value
is the upstream PCG library constant (`pcg_random.hpp` is an external
dependency that is not under `src/`), written as high word times 2^64 plus
low word exactly as `PCG_128BIT_CONSTANT` assembles it. -/
def default_multiplier_u128 : ℕ := 2549297995355413924 * 2 ^ 64 + 4865540595714422341

/-- Modelled from the spec: the PCG "cheap" 128-bit LCG multiplier, the
upstream PCG library constant (`pcg_random.hpp` is not under `src/`). -/
def cheap_multiplier_u128 : ℕ := 0xda942042e4dd58b5

/-- Tabulated inverse of the default 64-bit multiplier (src/src/pcg.h line 18). -/
def inverse_u64_default : ℕ := 13877824140714322085

/-- Tabulated inverse of the default 128-bit multiplier (src/src/pcg.h
lines 19-20), assembled as `PCG_128BIT_CONSTANT` does. -/
def inverse_u128_default : ℕ := 566787436162029664 * 2 ^ 64 + 11001107174925446285

/-- Tabulated inverse of the cheap 128-bit multiplier (src/src/pcg.h
lines 21-22). -/
def inverse_u128_cheap : ℕ := 924194304566127212 * 2 ^ 64 + 10053033838670173597

/-! ### The reversible PCG engine -/

/-- A PCG engine configuration: state width `w` in bits, LCG multiplier and
increment, the tabulated multiplicative inverse of the multiplier, the output
permutation, and the `output_previous` template flag selecting whether the
output permutation is applied to the pre-step or the post-step state. -/
structure PCGConfig where
  w : ℕ
  multiplier : ℕ
  inverse : ℕ
  increment : ℕ
  output : ℕ → ℕ
  output_previous : Bool

/-- Modelled from the spec: the LCG state transition `state' = state * M + C
mod 2^w` of the underlying PCG engine (`pcg_detail::engine::bump` lives in the
external `pcg_random.hpp`, not under `src/`). -/
def bump (c : PCGConfig) (s : ℕ) : ℕ :=
  (s * c.multiplier + c.increment) % 2 ^ c.w

/-- The source `ReversiblePCG::unbump` (src/src/pcg.h lines 50-53): invert the
LCG step as `(state - increment) * inverse` in w-bit unsigned arithmetic. -/
def unbump (c : PCGConfig) (s : ℕ) : ℕ :=
  ((s + (2 ^ c.w - c.increment % 2 ^ c.w)) % 2 ^ c.w) * c.inverse % 2 ^ c.w

/-- Modelled from the spec: the forward step of the PCG engine
(`pcg_detail::engine::operator()` lives in the external `pcg_random.hpp`).
Apply the LCG bump; emit the output permutation of the pre-step state when
`output_previous` is true (`base_generate0`), of the post-step state otherwise
(`base_generate`).  Returns the new state and the output. -/
def pcgNext (c : PCGConfig) (s : ℕ) : ℕ × ℕ :=
  if c.output_previous then (bump c s, c.output s)
  else (bump c s, c.output (bump c s))

/-- The source `ReversiblePCG::previous` (src/src/pcg.h lines 39-45): when
`output_previous` is true, unbump the state and emit the output permutation of
the new (unbumped) state (`base_ungenerate0`); otherwise emit the output
permutation of the old state and unbump (`base_ungenerate`). -/
def pcgPrev (c : PCGConfig) (s : ℕ) : ℕ × ℕ :=
  if c.output_previous then (unbump c s, c.output (unbump c s))
  else (unbump c s, c.output s)

lemma unbump_bump (c : PCGConfig)
    (hinv : c.multiplier * c.inverse % 2 ^ c.w = 1)
    {s : ℕ} (hs : s < 2 ^ c.w) :
    unbump c (bump c s) = s := by
  set m := 2 ^ c.w with hm
  have hmpos : 0 < m := pow_pos (by norm_num) _
  have hdvd : m ∣ c.increment + (m - c.increment % m) := by
    have h1 : m ∣ c.increment - c.increment % m := Nat.dvd_sub_mod _
    have hlt : c.increment % m < m := Nat.mod_lt _ hmpos
    have hle : c.increment % m ≤ c.increment := Nat.mod_le _ _
    have h2 : c.increment + (m - c.increment % m) =
        (c.increment - c.increment % m) + m := by omega
    rw [h2]
    exact Nat.dvd_add h1 dvd_rfl
  have h1 : (bump c s + (m - c.increment % m)) % m * c.inverse ≡
      s * (c.multiplier * c.inverse) [MOD m] := by
    calc (bump c s + (m - c.increment % m)) % m * c.inverse
        ≡ (bump c s + (m - c.increment % m)) * c.inverse [MOD m] :=
          Nat.ModEq.mul_right _ (Nat.mod_modEq _ _)
      _ ≡ ((s * c.multiplier + c.increment) + (m - c.increment % m)) * c.inverse [MOD m] :=
          Nat.ModEq.mul_right _ (Nat.ModEq.add_right _ (Nat.mod_modEq _ _))
      _ = s * (c.multiplier * c.inverse) +
            (c.increment + (m - c.increment % m)) * c.inverse := by ring
      _ ≡ s * (c.multiplier * c.inverse) + 0 [MOD m] :=
          Nat.ModEq.add_left _
            ((Nat.modEq_zero_iff_dvd).2 (Dvd.dvd.mul_right hdvd _))
      _ = s * (c.multiplier * c.inverse) := by ring
  have h2 : s * (c.multiplier * c.inverse) ≡ s [MOD m] := by
    calc s * (c.multiplier * c.inverse)
        ≡ s * (c.multiplier * c.inverse % m) [MOD m] :=
          Nat.ModEq.mul_left _ (Nat.mod_modEq _ _).symm
      _ = s * 1 := by rw [hinv]
      _ = s := by ring
  unfold unbump
  rw [← hm]
  calc (bump c s + (m - c.increment % m)) % m * c.inverse % m = s % m := h1.trans h2
    _ = s := Nat.mod_eq_of_lt hs

lemma pcgPrev_pcgNext (c : PCGConfig)
    (hinv : c.multiplier * c.inverse % 2 ^ c.w = 1)
    {s : ℕ} (hs : s < 2 ^ c.w) :
    pcgPrev c (pcgNext c s).1 = (s, (pcgNext c s).2) := by
  unfold pcgNext pcgPrev
  cases h : c.output_previous <;>
    simp [h, unbump_bump c hinv hs]

/-! ### Generic forward and backward iteration -/

/-- Call `f` a number of times from state `s`, collecting the outputs in call
order. -/
def iterN {σ α : Type _} (f : σ → σ × α) : σ → ℕ → σ × List α
  | s, 0 => (s, [])
  | s, k + 1 =>
    let p := iterN f s k
    let q := f p.1
    (q.1, p.2 ++ [q.2])

/-- Call `g` a number of times from state `s`, collecting the outputs in call
order (cons form, used for the backward direction). -/
def iterRev {σ α : Type _} (g : σ → σ × α) : σ → ℕ → σ × List α
  | s, 0 => (s, [])
  | s, k + 1 =>
    let p := g s
    let q := iterRev g p.1 k
    (q.1, p.2 :: q.2)

lemma iterN_inv {σ α : Type _} (f : σ → σ × α) (Inv : σ → Prop)
    (hInv : ∀ s, Inv s → Inv (f s).1) :
    ∀ (k : ℕ) (s : σ), Inv s → Inv (iterN f s k).1 := by
  intro k
  induction k with
  | zero => intro s hs; simpa [iterN] using hs
  | succ k ih =>
    intro s hs
    simpa [iterN] using hInv _ (ih s hs)

/-- A pointwise inverse step yields the k-fold round trip: k forward calls
followed by k backward calls restore the state and return the forward outputs
in reverse order. -/
lemma iter_roundtrip {σ α : Type _} (f g : σ → σ × α) (Inv : σ → Prop)
    (hInv : ∀ s, Inv s → Inv (f s).1)
    (hstep : ∀ s, Inv s → g (f s).1 = (s, (f s).2)) :
    ∀ (k : ℕ) (s : σ), Inv s →
      iterRev g (iterN f s k).1 k = (s, (iterN f s k).2.reverse) := by
  intro k
  induction k with
  | zero => intro s _; simp [iterN, iterRev]
  | succ k ih =>
    intro s hs
    have hp : Inv (iterN f s k).1 := iterN_inv f Inv hInv k s hs
    simp only [iterN, iterRev]
    rw [hstep _ hp]
    simp only
    rw [ih s hs]
    simp

/-- C2: for the ReversiblePCG engine with any configuration whose tabulated
inverse satisfies `M * M⁻¹ ≡ 1 (mod 2^w)`, `previous()` updates the state by
`(state - C) * M⁻¹ mod 2^w` and emits the permuted new state when the
output-previous flag is set, the permuted old state otherwise; and for every
state `s < 2^w` and every `k ≥ 0`, `k` forward steps followed by `k` backward
steps restore the state and emit the forward outputs in reverse order. -/
theorem C2_pcg_previous_inverts (c : PCGConfig)
    (hinv : c.multiplier * c.inverse % 2 ^ c.w = 1)
    (s : ℕ) (hs : s < 2 ^ c.w) (k : ℕ) :
    (∀ t : ℕ, pcgPrev c t =
      (((t + (2 ^ c.w - c.increment % 2 ^ c.w)) % 2 ^ c.w) * c.inverse % 2 ^ c.w,
       if c.output_previous then
         c.output (((t + (2 ^ c.w - c.increment % 2 ^ c.w)) % 2 ^ c.w) * c.inverse % 2 ^ c.w)
       else c.output t)) ∧
    iterRev (pcgPrev c) (iterN (pcgNext c) s k).1 k =
      (s, (iterN (pcgNext c) s k).2.reverse) := by
  constructor
  · intro t
    unfold pcgPrev unbump
    cases h : c.output_previous <;> simp [h]
  · refine iter_roundtrip _ _ (fun t => t < 2 ^ c.w) ?_ ?_ k s hs
    · intro t _
      have hb : bump c t < 2 ^ c.w := by
        unfold bump
        exact Nat.mod_lt _ (pow_pos (by norm_num) _)
      unfold pcgNext
      cases h : c.output_previous <;> simpa [h] using hb
    · intro t ht
      exact pcgPrev_pcgNext c hinv ht

/-- Witness for C2 at the concrete pcg64 configuration (default 64-bit
multiplier, its tabulated inverse, a concrete odd increment, the identity as
output permutation, output-previous true), state 42 and three steps. -/
theorem C2_pcg_previous_inverts_witness :
    (default_multiplier_u64 * inverse_u64_default % 2 ^ 64 = 1 ∧ (42 : ℕ) < 2 ^ 64) ∧
    ((∀ t : ℕ,
      pcgPrev ⟨64, default_multiplier_u64, inverse_u64_default, 1442695040888963407,
          fun x => x, true⟩ t =
      (((t + (2 ^ 64 - 1442695040888963407 % 2 ^ 64)) % 2 ^ 64) * inverse_u64_default % 2 ^ 64,
       if true then
         (((t + (2 ^ 64 - 1442695040888963407 % 2 ^ 64)) % 2 ^ 64) * inverse_u64_default % 2 ^ 64)
       else t)) ∧
    iterRev (pcgPrev ⟨64, default_multiplier_u64, inverse_u64_default, 1442695040888963407,
          fun x => x, true⟩)
        (iterN (pcgNext ⟨64, default_multiplier_u64, inverse_u64_default, 1442695040888963407,
          fun x => x, true⟩) 42 3).1 3 =
      (42, (iterN (pcgNext ⟨64, default_multiplier_u64, inverse_u64_default, 1442695040888963407,
          fun x => x, true⟩) 42 3).2.reverse)) := by
  refine ⟨⟨by norm_num [default_multiplier_u64, inverse_u64_default], by norm_num⟩, ?_⟩
  exact C2_pcg_previous_inverts _ (by norm_num [default_multiplier_u64, inverse_u64_default])
    42 (by norm_num) 3

/-- C3: each tabulated inverse constant is the exact multiplicative inverse of
its multiplier: the 64-bit pair modulo 2^64 and the two 128-bit pairs (default
and cheap multiplier) modulo 2^128. -/
theorem C3_inverse_constants :
    default_multiplier_u64 * inverse_u64_default % 2 ^ 64 = 1 ∧
    default_multiplier_u128 * inverse_u128_default % 2 ^ 128 = 1 ∧
    cheap_multiplier_u128 * inverse_u128_cheap % 2 ^ 128 = 1 := by
  refine ⟨?_, ?_, ?_⟩ <;>
    norm_num [default_multiplier_u64, inverse_u64_default, default_multiplier_u128,
      inverse_u128_default, cheap_multiplier_u128, inverse_u128_cheap]

/-! ### The reversible Mersenne Twister

State: 312 unsigned 64-bit words and an index `pos` (source `ReversibleMersenne`,
src/src/mersenne.h and src/src/mersenne.cpp). -/

/-- Source `upper_mask`: `~0 << 31` in 64-bit arithmetic. -/
def upper_mask : ℕ := 2 ^ 64 - 2 ^ 31

/-- Source `lower_mask`: `~upper_mask`. -/
def lower_mask : ℕ := 2 ^ 31 - 1

/-- Source `xor_mask`. -/
def xor_mask : ℕ := 0xb5026f5aa96619e9

/-- Source `first_mask`: 2^63. -/
def first_mask : ℕ := 0x8000000000000000

/-- The 312-word Mersenne state array. -/
abbrev MTArr := Fin 312 → ℕ

/-- Source `ReversibleMersenne::temper`: the four xor-shift-mask tempering
steps.  The left shifts wrap modulo 2^64 in the source, but the masks are
64-bit constants so the conjunction already discards the overflowing bits. -/
def temper (z : ℕ) : ℕ :=
  let z1 := z ^^^ ((z >>> 29) &&& 0x5555555555555555)
  let z2 := z1 ^^^ ((z1 <<< 17) &&& 0x71d67fffeda60000)
  let z3 := z2 ^^^ ((z2 <<< 37) &&& 0xfff7eee000000000)
  z3 ^^^ (z3 >>> 43)

/-- The value written into cell `k` by the twist loop body (src/src/mersenne.cpp
lines 73-76), reading the array in place. -/
def twistVal (a : MTArr) (k : Fin 312) : ℕ :=
  let y := (a k &&& upper_mask) ||| (a (k + 1) &&& lower_mask)
  a (k + 156) ^^^ (y >>> 1) ^^^ (if y &&& 1 = 1 then xor_mask else 0)

/-- One iteration of the twist loop: update cell `k` in place. -/
def twistStep (a : MTArr) (k : Fin 312) : MTArr :=
  Function.update a k (twistVal a k)

/-- The array after the first `k` iterations of the twist loop. -/
def twistMid (a : MTArr) : ℕ → MTArr
  | 0 => a
  | k + 1 => if h : k < 312 then twistStep (twistMid a k) ⟨k, h⟩ else twistMid a k

/-- Source `ReversibleMersenne::twist` block update: all 312 in-place
iterations (the source then sets `pos = 0`, which the callers below do). -/
def twist (a : MTArr) : MTArr := twistMid a 312

/-- One iteration of the untwist loop at index `k` (src/src/mersenne.cpp
lines 83-94): reconstruct the upper 33 bits of the previous word of cell `k`
from cells `k` and `k+156`, then its lower 31 bits from cells `k-1` and
`k-1+156`, reading the array in place. -/
def untwistStep (a : MTArr) (k : Fin 312) : MTArr :=
  let y1 := a k ^^^ a (k + 156)
  let y1' := if y1 &&& first_mask ≠ 0 then y1 ^^^ xor_mask else y1
  let v1 := (y1' <<< 1) &&& upper_mask
  let a' := Function.update a k v1
  let y2 := a' (k - 1) ^^^ a' (k - 1 + 156)
  let b0 : ℕ := if y2 &&& first_mask ≠ 0 then 1 else 0
  let y2' := if y2 &&& first_mask ≠ 0 then y2 ^^^ xor_mask else y2
  Function.update a' k (v1 ||| b0 ||| ((y2' <<< 1) &&& lower_mask))

/-- The array after the first `j` iterations of the untwist loop, which runs
from index 311 down to 0. -/
def untwistMid (b : MTArr) : ℕ → MTArr
  | 0 => b
  | j + 1 => if h : j < 312 then untwistStep (untwistMid b j) ⟨311 - j, by omega⟩
             else untwistMid b j

/-- Source `ReversibleMersenne::untwist` inverse block update (the source then
sets `pos = 312`, which the callers below do). -/
def untwist (b : MTArr) : MTArr := untwistMid b 312

/-- The Mersenne engine state: the word array and the position, an integer in
`[0, 312]` for every reachable state. -/
structure MT where
  state : MTArr
  pos : ℕ

/-- Source `ReversibleMersenne::seed` recurrence: word 0 is the seed and
`state[i] = f * (state[i-1] xor (state[i-1] >> 62)) + i mod 2^64`. -/
def mtSeedWord (sd : ℕ) : ℕ → ℕ
  | 0 => sd
  | i + 1 =>
    let x := mtSeedWord sd i
    ((x ^^^ (x >>> 62)) * 6364136223846793005 + (i + 1)) % W64

/-- Source `ReversibleMersenne::seed`: fill the array by the recurrence and set
`pos = 312`, forcing a twist on the next draw. -/
def mtSeed (sd : ℕ) : MT := ⟨fun i => mtSeedWord sd i, 312⟩

/-- Source `ReversibleMersenne::next`: twist when `pos` has reached 312, then
emit the tempered current word and advance `pos`. -/
def mtNext (m : MT) : MT × ℕ :=
  if h : m.pos < 312 then
    (⟨m.state, m.pos + 1⟩, temper (m.state ⟨m.pos, h⟩))
  else
    (⟨twist m.state, 1⟩, temper (twist m.state 0))

/-- Source `ReversibleMersenne::previous`: untwist when `pos` is 0 (which
repositions at 312), then retreat `pos` and emit the tempered word there. -/
def mtPrev (m : MT) : MT × ℕ :=
  if m.pos = 0 then
    (⟨untwist m.state, 311⟩, temper (untwist m.state 311))
  else
    (⟨m.state, m.pos - 1⟩, temper (m.state ⟨(m.pos - 1) % 312, Nat.mod_lt _ (by norm_num)⟩))

/-- The state transition of one forward draw. -/
def mtNextState (m : MT) : MT := (mtNext m).1

/-- Source `ReversibleMersenne::discard`: twist whole blocks while more than
the remainder of the current block is requested, then advance `pos`. -/
def mtDiscard (m : MT) (z : ℕ) : MT :=
  if z > 312 - m.pos then
    mtDiscard ⟨twist m.state, 0⟩ (z - (312 - m.pos))
  else
    ⟨m.state, m.pos + z⟩
termination_by 2 * z + (if 312 ≤ m.pos then 1 else 0)
decreasing_by
  rcases Nat.lt_or_ge m.pos 312 with h | h
  · have : 312 - m.pos ≥ 1 := by omega
    split <;> omega
  · have : 312 - m.pos = 0 := by omega
    split <;> omega

lemma mtIter_of_le (z : ℕ) : ∀ m : MT, m.pos + z ≤ 312 →
    mtNextState^[z] m = ⟨m.state, m.pos + z⟩ := by
  induction z with
  | zero => intro m _; simp
  | succ z ih =>
    intro m hm
    have hlt : m.pos < 312 := by omega
    rw [Function.iterate_succ_apply]
    have h1 : mtNextState m = ⟨m.state, m.pos + 1⟩ := by
      unfold mtNextState mtNext
      rw [dif_pos hlt]
    rw [h1, ih _ (by simpa using by omega)]
    have : m.pos + 1 + z = m.pos + (z + 1) := by omega
    rw [this]

lemma mtIter_twist_phase (z : ℕ) (hz : 1 ≤ z) (a : MTArr) :
    mtNextState^[z] ⟨a, 312⟩ = mtNextState^[z] ⟨twist a, 0⟩ := by
  obtain ⟨z', rfl⟩ : ∃ z', z = z' + 1 := ⟨z - 1, by omega⟩
  rw [Function.iterate_succ_apply, Function.iterate_succ_apply]
  have h1 : mtNextState ⟨a, 312⟩ = ⟨twist a, 1⟩ := by
    unfold mtNextState mtNext
    rw [dif_neg (by simp)]
  have h2 : mtNextState ⟨twist a, 0⟩ = ⟨twist a, 1⟩ := by
    unfold mtNextState mtNext
    rw [dif_pos (by simp)]
  rw [h1, h2]

lemma mtDiscard_eq_iter_of_lt (z : ℕ) : ∀ m : MT, m.pos < 312 →
    mtDiscard m z = mtNextState^[z] m := by
  induction z using Nat.strong_induction_on with
  | _ z ih =>
    intro m hm
    rw [mtDiscard]
    split
    · rename_i hgt
      have hz' : z - (312 - m.pos) < z := by omega
      rw [ih _ hz' ⟨twist m.state, 0⟩ (by norm_num)]
      have hsplit : z = (z - (312 - m.pos)) + (312 - m.pos) := by omega
      conv_rhs => rw [hsplit, Function.iterate_add_apply]
      rw [mtIter_of_le _ m (by omega)]
      have h312 : m.pos + (312 - m.pos) = 312 := by omega
      rw [h312]
      exact (mtIter_twist_phase _ (by omega) m.state).symm
    · rename_i hle
      rw [mtIter_of_le _ m (by omega)]

/-- C8: for the ReversibleMersenne engine, from every state with position at
most 312 (every reachable state), `discard(z)` leaves the engine bit-for-bit
equal to the state reached by `z` successive forward draws. -/
theorem C8_mersenne_discard_equiv (m : MT) (hpos : m.pos ≤ 312) (z : ℕ) :
    mtDiscard m z = mtNextState^[z] m := by
  rcases Nat.lt_or_ge m.pos 312 with h | h
  · exact mtDiscard_eq_iter_of_lt z m h
  · have h312 : m.pos = 312 := by omega
    obtain ⟨a, rfl⟩ : ∃ a : MTArr, m = ⟨a, 312⟩ := ⟨m.state, by cases m; simp_all⟩
    rcases Nat.eq_zero_or_pos z with rfl | hz
    · rw [mtDiscard]
      norm_num
    · rw [mtDiscard]
      rw [if_pos (by norm_num; omega)]
      norm_num
      rw [mtDiscard_eq_iter_of_lt z _ (by norm_num)]
      exact (mtIter_twist_phase z hz a).symm

/-- Witness for C8 at the default-seeded engine and 700 draws (crossing two
twist boundaries). -/
theorem C8_mersenne_discard_equiv_witness :
    (mtSeed 5489).pos ≤ 312 ∧
    mtDiscard (mtSeed 5489) 700 = mtNextState^[700] (mtSeed 5489) :=
  ⟨by norm_num [mtSeed], C8_mersenne_discard_equiv (mtSeed 5489) (by norm_num [mtSeed]) 700⟩

/-! ### The composite reversible generator

Source `ReversibleRNG` (src/src/reverse.h): one engine, one distribution and a
signed 64-bit position.  `next` advances the position and samples the
distribution from the engine; `previous` retreats the position and samples the
distribution from the `ReversedEngine` adapter, whose function-call operator
forwards to the engine's `previous`.  Below the composite is instantiated with
the uniform real distribution (one engine word per sample, value
`float64(word) * (b - a) + a`) over the Mersenne engine and over a PCG
engine. -/

/-- Composite generator over the Mersenne engine and the uniform real
distribution with parameters `a ≤ b`. -/
structure RNGRealMT where
  engine : MT
  a : ℚ
  b : ℚ
  position : ℤ

/-- Composite `next` over the Mersenne engine: increment the position, draw one
engine word forward, map it through the uniform real distribution. -/
def rngRealMTNext (g : RNGRealMT) : RNGRealMT × ℚ :=
  let p := mtNext g.engine
  (⟨p.1, g.a, g.b, g.position + 1⟩, float64Q p.2 * (g.b - g.a) + g.a)

/-- Composite `previous` over the Mersenne engine: decrement the position, draw
one engine word through the reversed-engine adapter, map it through the
uniform real distribution. -/
def rngRealMTPrev (g : RNGRealMT) : RNGRealMT × ℚ :=
  let p := mtPrev g.engine
  (⟨p.1, g.a, g.b, g.position - 1⟩, float64Q p.2 * (g.b - g.a) + g.a)

/-- The composite `operator==`: engine state, distribution parameters, and
position all equal. -/
def rngRealMTEqual (x y : RNGRealMT) : Prop :=
  (∀ i, x.engine.state i = y.engine.state i) ∧ x.engine.pos = y.engine.pos ∧
    x.a = y.a ∧ x.b = y.b ∧ x.position = y.position

/-- Counterexample to C1: over the Mersenne engine, the uniform real
distribution on `[-10, 10)`, the fresh seed 5489 and `k = 1`, one `next()`
followed by one `previous()` does not restore the composite's observable
state: the forward draw twists the array and leaves the engine at position 0
of the twisted block, while the pre-draw engine sat at position 312 of the
untwisted block, and `operator==` compares both fields bitwise. -/
theorem C1_counterexample :
    ¬ rngRealMTEqual
        (rngRealMTPrev (rngRealMTNext ⟨mtSeed 5489, -10, 10, 0⟩).1).1
        ⟨mtSeed 5489, -10, 10, 0⟩ := by
  intro h
  have hpos := h.2.1
  have hL : (rngRealMTPrev (rngRealMTNext ⟨mtSeed 5489, -10, 10, 0⟩).1).1.engine.pos = 0 := rfl
  have hR : (mtSeed 5489).pos = 312 := rfl
  rw [hL, hR] at hpos
  exact absurd hpos (by norm_num)

/-- Composite generator over a PCG engine and the uniform real distribution. -/
structure RNGReal where
  engineState : ℕ
  a : ℚ
  b : ℚ
  position : ℤ

/-- Composite `next` over a PCG engine configuration. -/
def rngRealNext (c : PCGConfig) (g : RNGReal) : RNGReal × ℚ :=
  let p := pcgNext c g.engineState
  (⟨p.1, g.a, g.b, g.position + 1⟩, float64Q p.2 * (g.b - g.a) + g.a)

/-- Composite `previous` over a PCG engine configuration. -/
def rngRealPrev (c : PCGConfig) (g : RNGReal) : RNGReal × ℚ :=
  let p := pcgPrev c g.engineState
  (⟨p.1, g.a, g.b, g.position - 1⟩, float64Q p.2 * (g.b - g.a) + g.a)

/-- C1 amended: over a ReversiblePCG engine (any configuration with a valid
tabulated inverse) and a distribution that consumes exactly one engine word
per sample, here the uniform real distribution, `k` scalar `next()` calls
followed by `k` scalar `previous()` calls restore the composite's observable
state (engine state, distribution parameters and position) and return the `k`
forward values in reverse order.  The unamended claim fails for engines or
distribution paths whose forward and backward traversals are not pointwise
inverse (see the counterexample). -/
theorem C1_amended_roundtrip (c : PCGConfig)
    (hinv : c.multiplier * c.inverse % 2 ^ c.w = 1)
    (g : RNGReal) (hs : g.engineState < 2 ^ c.w) (k : ℕ) :
    iterRev (rngRealPrev c) (iterN (rngRealNext c) g k).1 k =
      (g, (iterN (rngRealNext c) g k).2.reverse) := by
  refine iter_roundtrip _ _ (fun t => t.engineState < 2 ^ c.w) ?_ ?_ k g hs
  · intro t _
    have hb : bump c t.engineState < 2 ^ c.w := by
      unfold bump
      exact Nat.mod_lt _ (pow_pos (by norm_num) _)
    unfold rngRealNext pcgNext
    cases h : c.output_previous <;> simpa [h] using hb
  · intro t ht
    have hstep := pcgPrev_pcgNext c hinv ht
    unfold rngRealNext rngRealPrev
    simp only [hstep]
    have : t.position + 1 - 1 = t.position := by ring
    rw [this]

/-- Witness for the amended C1 at a concrete 64-bit PCG configuration, the
uniform real distribution on `[-10, 10)`, engine state 42, position 0, and
`k = 4`. -/
theorem C1_amended_roundtrip_witness :
    (default_multiplier_u64 * inverse_u64_default % 2 ^ 64 = 1 ∧
      (42 : ℕ) < 2 ^ 64) ∧
    iterRev (rngRealPrev ⟨64, default_multiplier_u64, inverse_u64_default,
        1442695040888963407, fun x => x, true⟩)
      (iterN (rngRealNext ⟨64, default_multiplier_u64, inverse_u64_default,
        1442695040888963407, fun x => x, true⟩) ⟨42, -10, 10, 0⟩ 4).1 4 =
      (⟨42, -10, 10, 0⟩, (iterN (rngRealNext ⟨64, default_multiplier_u64,
        inverse_u64_default, 1442695040888963407, fun x => x, true⟩)
        ⟨42, -10, 10, 0⟩ 4).2.reverse) :=
  ⟨⟨by norm_num [default_multiplier_u64, inverse_u64_default], by norm_num⟩,
    C1_amended_roundtrip _
      (by norm_num [default_multiplier_u64, inverse_u64_default])
      ⟨42, -10, 10, 0⟩ (by norm_num) 4⟩

/-! ### Bit-level lemmas for the untwist reconstruction -/

lemma upper_bit_true {i : ℕ} (h31 : 31 ≤ i) (h64 : i < 64) :
    upper_mask.testBit i = true := by
  rw [show upper_mask = (2 ^ 33 - 1) <<< 31 by norm_num [upper_mask, Nat.shiftLeft_eq],
    Nat.testBit_shiftLeft, Nat.testBit_two_pow_sub_one,
    decide_eq_true (show i ≥ 31 by omega), decide_eq_true (show i - 31 < 33 by omega)]
  rfl

lemma upper_bit_false {i : ℕ} (h : i < 31 ∨ 64 ≤ i) :
    upper_mask.testBit i = false := by
  rw [show upper_mask = (2 ^ 33 - 1) <<< 31 by norm_num [upper_mask, Nat.shiftLeft_eq],
    Nat.testBit_shiftLeft, Nat.testBit_two_pow_sub_one]
  rcases h with h | h
  · rw [decide_eq_false (show ¬ i ≥ 31 by omega)]
    rfl
  · rw [decide_eq_false (show ¬ (i - 31 < 33) by omega)]
    simp

lemma lower_bit_true {i : ℕ} (h : i < 31) : lower_mask.testBit i = true := by
  rw [show lower_mask = 2 ^ 31 - 1 by norm_num [lower_mask],
    Nat.testBit_two_pow_sub_one]
  exact decide_eq_true h

lemma lower_bit_false {i : ℕ} (h : 31 ≤ i) : lower_mask.testBit i = false := by
  rw [show lower_mask = 2 ^ 31 - 1 by norm_num [lower_mask],
    Nat.testBit_two_pow_sub_one]
  exact decide_eq_false (by omega)

lemma xor_mask_bit63 : xor_mask.testBit 63 = true := by decide

lemma and_first_ne_iff (z : ℕ) : z &&& first_mask ≠ 0 ↔ z.testBit 63 = true := by
  rw [show first_mask = 2 ^ 63 by norm_num [first_mask], Nat.and_two_pow]
  cases hb : z.testBit 63 <;> simp [hb]

/-- The twist combination hides `y >>> 1` behind a conditional xor with
`xor_mask`; bit 63 of the combination records bit 0 of `y`, because bit 63 of
`y >>> 1` is clear for `y < 2^64` and `xor_mask` has bit 63 set.  This branch
is the `y & 1 = 1` case. -/
lemma recover_bit_set (y : ℕ) (hy : y < 2 ^ 64) :
    ((y >>> 1) ^^^ xor_mask) &&& first_mask ≠ 0 ∧
    ((y >>> 1) ^^^ xor_mask) ^^^ xor_mask = y >>> 1 := by
  have hbit : (y >>> 1).testBit 63 = false := by
    rw [Nat.testBit_shiftRight]
    exact Nat.testBit_lt_two_pow (lt_of_lt_of_le hy (by norm_num))
  refine ⟨(and_first_ne_iff _).2 ?_, Nat.xor_cancel_right _ _⟩
  rw [Nat.testBit_xor, hbit, xor_mask_bit63]
  rfl

/-- The `y & 1 = 0` branch of the recovery: no xor was applied and bit 63 of
`y >>> 1` is clear, so the conditional detector fires false. -/
lemma recover_bit_clear (y : ℕ) (hy : y < 2 ^ 64) :
    (y >>> 1) &&& first_mask = 0 := by
  have hbit : (y >>> 1).testBit 63 = false := by
    rw [Nat.testBit_shiftRight]
    exact Nat.testBit_lt_two_pow (lt_of_lt_of_le hy (by norm_num))
  rw [show first_mask = 2 ^ 63 by norm_num [first_mask], Nat.and_two_pow, hbit]
  rfl

/-- Clearing bit 0 of `y` does not change its upper-mask part. -/
lemma shift_and_upper (y : ℕ) : ((y >>> 1) <<< 1) &&& upper_mask = y &&& upper_mask := by
  apply Nat.eq_of_testBit_eq
  intro i
  simp only [Nat.testBit_and, Nat.testBit_shiftLeft, Nat.testBit_shiftRight]
  rcases Nat.lt_or_ge i 31 with h31 | h31
  · rw [upper_bit_false (Or.inl h31)]
    simp
  · rcases Nat.lt_or_ge i 64 with h64 | h64
    · rw [upper_bit_true h31 h64, decide_eq_true (show i ≥ 1 by omega),
        show 1 + (i - 1) = i by omega]
      simp
    · rw [upper_bit_false (Or.inr h64)]
      simp

/-- Reassembling the lower-mask part: the detector bit gives back bit 0 and the
shifted word gives back bits 1 to 30. -/
lemma assemble_or (x y : ℕ) :
    ((x &&& upper_mask) ||| (if y &&& 1 = 1 then (1 : ℕ) else 0)) |||
      (((y >>> 1) <<< 1) &&& lower_mask) =
    (x &&& upper_mask) ||| (y &&& lower_mask) := by
  apply Nat.eq_of_testBit_eq
  intro i
  have hone : ∀ j : ℕ, (1 : ℕ).testBit j = decide (0 = j) := by
    intro j
    rw [show (1 : ℕ) = 2 ^ 0 by norm_num, Nat.testBit_two_pow]
  simp only [Nat.testBit_or, Nat.testBit_and, Nat.testBit_shiftLeft, Nat.testBit_shiftRight]
  rcases eq_or_ne i 0 with rfl | hi0
  · rw [upper_bit_false (Or.inl (by norm_num)), lower_bit_true (by norm_num),
      decide_eq_false (show ¬ (0 : ℕ) ≥ 1 by omega)]
    by_cases h1 : y &&& 1 = 1
    · have hy0 : y.testBit 0 = true := by
        rw [Nat.testBit_zero]
        exact decide_eq_true (by rw [← Nat.and_one_is_mod]; exact h1)
      rw [if_pos h1, hone, hy0]
      simp
    · have hy0 : y.testBit 0 = false := by
        rw [Nat.testBit_zero]
        exact decide_eq_false (by rw [← Nat.and_one_is_mod]; exact h1)
      rw [if_neg h1, hy0, Nat.zero_testBit]
      simp
  · have hb0 : (if y &&& 1 = 1 then (1 : ℕ) else 0).testBit i = false := by
      split
      · rw [hone]
        exact decide_eq_false (by omega)
      · exact Nat.zero_testBit _
    rw [hb0]
    rcases Nat.lt_or_ge i 31 with h31 | h31
    · rw [lower_bit_true h31, decide_eq_true (show i ≥ 1 by omega),
        show 1 + (i - 1) = i by omega]
      simp
    · rw [lower_bit_false h31]
      simp

/-- Disjointness of the masks: the upper part of an upper-lower combination. -/
lemma or_masks_and_upper (p q : ℕ) :
    ((p &&& upper_mask) ||| (q &&& lower_mask)) &&& upper_mask = p &&& upper_mask := by
  apply Nat.eq_of_testBit_eq
  intro i
  simp only [Nat.testBit_and, Nat.testBit_or]
  rcases Nat.lt_or_ge i 31 with h31 | h31
  · rw [upper_bit_false (Or.inl h31)]
    simp
  · rw [lower_bit_false h31]
    simp

/-- Disjointness of the masks: the lower part of an upper-lower combination. -/
lemma or_masks_and_lower (p q : ℕ) :
    ((p &&& upper_mask) ||| (q &&& lower_mask)) &&& lower_mask = q &&& lower_mask := by
  apply Nat.eq_of_testBit_eq
  intro i
  simp only [Nat.testBit_and, Nat.testBit_or]
  rcases Nat.lt_or_ge i 31 with h31 | h31
  · rw [upper_bit_false (Or.inl h31)]
    simp
  · rw [lower_bit_false h31]
    simp

/-- A 64-bit word is the disjunction of its upper-mask and lower-mask parts. -/
lemma and_upper_or_and_lower (x : ℕ) (hx : x < 2 ^ 64) :
    (x &&& upper_mask) ||| (x &&& lower_mask) = x := by
  apply Nat.eq_of_testBit_eq
  intro i
  simp only [Nat.testBit_or, Nat.testBit_and]
  rcases Nat.lt_or_ge i 64 with h64 | h64
  · rcases Nat.lt_or_ge i 31 with h31 | h31
    · rw [upper_bit_false (Or.inl h31), lower_bit_true h31]
      simp
    · rw [upper_bit_true h31 h64, lower_bit_false h31]
      simp
  · have hx' : x.testBit i = false :=
      Nat.testBit_lt_two_pow (lt_of_lt_of_le hx (Nat.pow_le_pow_right (by norm_num) h64))
    rw [hx', upper_bit_false (Or.inr h64), lower_bit_false (by omega)]
    simp

/-! ### Characterization of the in-place twist loop -/

lemma twistMid_succ (a : MTArr) (k : ℕ) :
    twistMid a (k + 1) =
      if h : k < 312 then twistStep (twistMid a k) ⟨k, h⟩ else twistMid a k := rfl

lemma twistMid_stable (a : MTArr) {k₁ k₂ : ℕ} (h : k₁ ≤ k₂) (j : Fin 312)
    (hj : (j : ℕ) < k₁) : twistMid a k₂ j = twistMid a k₁ j := by
  induction k₂ with
  | zero =>
    have : k₁ = 0 := by omega
    omega
  | succ k ih =>
    rcases Nat.lt_or_ge k₁ (k + 1) with hlt | hge
    · have hk₁k : k₁ ≤ k := by omega
      rw [twistMid_succ]
      split
      · rename_i hk312
        unfold twistStep
        rw [Function.update_noteq
          (show j ≠ ⟨k, hk312⟩ from Fin.ne_of_val_ne (show (j : ℕ) ≠ k by omega))]
        exact ih hk₁k
      · exact ih hk₁k
    · have : k₁ = k + 1 := by omega
      rw [this]

lemma twistMid_untouched (a : MTArr) (k : ℕ) (j : Fin 312) (hj : k ≤ (j : ℕ)) :
    twistMid a k j = a j := by
  induction k with
  | zero => rfl
  | succ k ih =>
    rw [twistMid_succ]
    split
    · rename_i hk312
      unfold twistStep
      rw [Function.update_noteq
        (show j ≠ ⟨k, hk312⟩ from Fin.ne_of_val_ne (show (j : ℕ) ≠ k by omega))]
      exact ih (by omega)
    · exact ih (by omega)

lemma twist_apply (a : MTArr) (k : Fin 312) :
    twist a k = twistVal (twistMid a (k : ℕ)) k := by
  unfold twist
  rw [twistMid_stable a (show (k : ℕ) + 1 ≤ 312 by omega) k (by omega),
    twistMid_succ, dif_pos k.isLt]
  unfold twistStep
  exact Function.update_same (⟨(k : ℕ), k.isLt⟩ : Fin 312)
    (twistVal (twistMid a (k : ℕ)) ⟨(k : ℕ), k.isLt⟩) (twistMid a (k : ℕ))

lemma twistMid_apply (a : MTArr) (k : ℕ) (j : Fin 312) :
    twistMid a k j = if (j : ℕ) < k then twist a j else a j := by
  split
  · rename_i hjk
    rw [twistMid_stable a (show (j : ℕ) + 1 ≤ k by omega) j (by omega),
      twistMid_succ, dif_pos j.isLt]
    unfold twistStep
    rw [twist_apply]
    exact Function.update_same _ _ _
  · rename_i hjk
    exact twistMid_untouched a k j (by omega)

/-- The in-place read of cell `k+1` during the twist loop at index `k`:
already twisted exactly when the index wraps, at `k = 311`. -/
def twistB (a : MTArr) (k : Fin 312) : ℕ :=
  if (k : ℕ) = 311 then twist a (k + 1) else a (k + 1)

/-- The value whose shifted combination the twist xors into cell `k`. -/
def twistY (a : MTArr) (k : Fin 312) : ℕ :=
  (a k &&& upper_mask) ||| (twistB a k &&& lower_mask)

/-- The in-place read of cell `k+156` during the twist loop at index `k`:
already twisted exactly when the index wraps, for `k ≥ 156`. -/
def twistS (a : MTArr) (k : Fin 312) : ℕ :=
  if 155 < (k : ℕ) then twist a (k + 156) else a (k + 156)

lemma val_add_one (k : Fin 312) :
    ((k + 1 : Fin 312) : ℕ) = if (k : ℕ) = 311 then 0 else (k : ℕ) + 1 := by
  rw [Fin.val_add]
  have h1 : ((1 : Fin 312) : ℕ) = 1 := rfl
  rw [h1]
  have := k.isLt
  split <;> omega

lemma val_add_156 (k : Fin 312) :
    ((k + 156 : Fin 312) : ℕ) =
      if 155 < (k : ℕ) then (k : ℕ) - 156 else (k : ℕ) + 156 := by
  rw [Fin.val_add]
  have h1 : ((156 : Fin 312) : ℕ) = 156 := rfl
  rw [h1]
  have := k.isLt
  split <;> omega

/-- The evaluated twist recurrence: in terms of the original array and the
already-twisted wrapped cells. -/
lemma twist_formula (a : MTArr) (k : Fin 312) :
    twist a k = twistS a k ^^^ (twistY a k >>> 1) ^^^
      (if twistY a k &&& 1 = 1 then xor_mask else 0) := by
  rw [twist_apply]
  unfold twistVal twistY twistB twistS
  have hk : twistMid a (k : ℕ) k = a k := by
    rw [twistMid_apply]
    simp
  have hk1 : twistMid a (k : ℕ) (k + 1) =
      if (k : ℕ) = 311 then twist a (k + 1) else a (k + 1) := by
    rw [twistMid_apply, val_add_one]
    have := k.isLt
    by_cases h : (k : ℕ) = 311
    · rw [if_pos h, if_pos h, if_pos (by omega)]
    · rw [if_neg h, if_neg h, if_neg (by omega)]
  have hk156 : twistMid a (k : ℕ) (k + 156) =
      if 155 < (k : ℕ) then twist a (k + 156) else a (k + 156) := by
    rw [twistMid_apply, val_add_156]
    have := k.isLt
    by_cases h : 155 < (k : ℕ)
    · rw [if_pos h, if_pos h, if_pos (by omega)]
    · rw [if_neg h, if_neg h, if_neg (by omega)]
  rw [hk, hk1, hk156]

/-- All entries below 2^64. -/
def BoundedArr (a : MTArr) : Prop := ∀ i, a i < 2 ^ 64

lemma twistY_lt (a : MTArr) (k : Fin 312) : twistY a k < 2 ^ 64 := by
  unfold twistY
  refine Nat.or_lt_two_pow ?_ ?_
  · exact lt_of_le_of_lt Nat.and_le_right (by norm_num [upper_mask])
  · exact lt_of_le_of_lt Nat.and_le_right (by norm_num [lower_mask])

lemma twist_bounded (a : MTArr) (ha : BoundedArr a) : BoundedArr (twist a) := by
  have key : ∀ n : ℕ, ∀ i : Fin 312, (i : ℕ) = n → twist a i < 2 ^ 64 := by
    intro n
    induction n using Nat.strong_induction_on with
    | _ n ih =>
      intro i hi
      rw [twist_formula]
      have h1 : twistS a i < 2 ^ 64 := by
        unfold twistS
        split
        · rename_i h
          refine ih ((i + 156 : Fin 312) : ℕ) ?_ _ rfl
          rw [val_add_156, if_pos h]
          omega
        · exact ha _
      have h2 : twistY a i >>> 1 < 2 ^ 64 :=
        lt_of_le_of_lt (by rw [Nat.shiftRight_eq_div_pow]; exact Nat.div_le_self _ _)
          (twistY_lt a i)
      have h3 : (if twistY a i &&& 1 = 1 then xor_mask else 0) < 2 ^ 64 := by
        split <;> norm_num [xor_mask]
      exact Nat.xor_lt_two_pow (Nat.xor_lt_two_pow h1 h2) h3
  intro i
  exact key (i : ℕ) i rfl

/-! ### Characterization of the in-place untwist loop -/

/-- The word that the untwist loop writes into cell 0: upper bits from the
first half, lower bits reconstructed from the already-restored cells 311 and
155. -/
def untwistZeroVal (a : MTArr) : ℕ :=
  ((a 0 &&& upper_mask) |||
    (if (a 311 ^^^ a 155) &&& first_mask ≠ 0 then (1 : ℕ) else 0)) |||
  (((if (a 311 ^^^ a 155) &&& first_mask ≠ 0
     then (a 311 ^^^ a 155) ^^^ xor_mask else (a 311 ^^^ a 155)) <<< 1) &&& lower_mask)

/-- What one full untwist pass over `twist a` restores: cell `i ≥ 1` returns
to `a i`; cell 0 receives its upper bits and the reconstructed lower bits. -/
def untwistTarget (a : MTArr) (i : Fin 312) : ℕ :=
  if (i : ℕ) = 0 then untwistZeroVal a else a i

/-- The first half of the untwist loop body recovers `y >>> 1` from the twist
combination; spelled for an arbitrary conditional xor input. -/
lemma recover_full (y : ℕ) (hy : y < 2 ^ 64) :
    (if ((y >>> 1) ^^^ (if y &&& 1 = 1 then xor_mask else 0)) &&& first_mask ≠ 0
     then ((y >>> 1) ^^^ (if y &&& 1 = 1 then xor_mask else 0)) ^^^ xor_mask
     else (y >>> 1) ^^^ (if y &&& 1 = 1 then xor_mask else 0)) = y >>> 1 ∧
    (if ((y >>> 1) ^^^ (if y &&& 1 = 1 then xor_mask else 0)) &&& first_mask ≠ 0
     then (1 : ℕ) else 0) = (if y &&& 1 = 1 then (1 : ℕ) else 0) := by
  by_cases h1 : y &&& 1 = 1
  · rw [if_pos h1, if_pos h1]
    obtain ⟨hne, hxor⟩ := recover_bit_set y hy
    rw [if_pos hne, if_pos hne]
    exact ⟨hxor, rfl⟩
  · rw [if_neg h1, if_neg h1, Nat.xor_zero]
    have hz := recover_bit_clear y hy
    rw [if_neg (show ¬ (y >>> 1) &&& first_mask ≠ 0 by omega),
      if_neg (show ¬ (y >>> 1) &&& first_mask ≠ 0 by omega)]
    exact ⟨rfl, rfl⟩

lemma xor_cancel_front (s t c : ℕ) : (s ^^^ t ^^^ c) ^^^ s = t ^^^ c := by
  apply Nat.eq_of_testBit_eq
  intro i
  simp only [Nat.testBit_xor]
  cases s.testBit i <;> cases t.testBit i <;> cases c.testBit i <;> rfl

lemma val_sub_one (k : Fin 312) : ((k - 1 : Fin 312) : ℕ) = (311 + (k : ℕ)) % 312 := by
  rw [Fin.sub_def]
  rfl

lemma val_sub_one_eq (k : Fin 312) :
    ((k - 1 : Fin 312) : ℕ) = if (k : ℕ) = 0 then 311 else (k : ℕ) - 1 := by
  rw [val_sub_one]
  have := k.isLt
  split <;> omega

lemma val_sub_one_add_156 (k : Fin 312) :
    ((k - 1 + 156 : Fin 312) : ℕ) =
      if 157 ≤ (k : ℕ) then (k : ℕ) - 157 else (k : ℕ) + 155 := by
  rw [Fin.val_add, val_sub_one]
  have h156 : ((156 : Fin 312) : ℕ) = 156 := rfl
  rw [h156]
  have := k.isLt
  rcases Nat.lt_or_ge (k : ℕ) 157 with h | h
  · rw [if_neg (by omega)]
    omega
  · rw [if_pos h]
    omega

lemma sub_one_add_one (k : Fin 312) (hk : 1 ≤ (k : ℕ)) : k - 1 + 1 = k := by
  apply Fin.ext
  rw [Fin.val_add, val_sub_one]
  have h1 : ((1 : Fin 312) : ℕ) = 1 := rfl
  rw [h1]
  have := k.isLt
  omega

lemma untwistMid_succ (b : MTArr) (j : ℕ) (hj : j < 312) :
    untwistMid b (j + 1) = untwistStep (untwistMid b j) ⟨311 - j, by omega⟩ := by
  show (if h : j < 312 then untwistStep (untwistMid b j) ⟨311 - j, by omega⟩
        else untwistMid b j) = _
  rw [dif_pos hj]

lemma untwistMid_succ_ge (b : MTArr) (j : ℕ) (hj : ¬ j < 312) :
    untwistMid b (j + 1) = untwistMid b j := by
  show (if h : j < 312 then untwistStep (untwistMid b j) ⟨311 - j, by omega⟩
        else untwistMid b j) = _
  rw [dif_neg hj]

lemma untwistStep_apply_ne (u : MTArr) (k i : Fin 312) (h : i ≠ k) :
    untwistStep u k i = u i := by
  unfold untwistStep
  rw [Function.update_noteq h, Function.update_noteq h]

lemma untwistMid_untouched (b : MTArr) (j : ℕ) (i : Fin 312)
    (hi : (i : ℕ) < 312 - j) : untwistMid b j i = b i := by
  induction j with
  | zero => rfl
  | succ j ih =>
    have hj : j < 312 := by omega
    rw [untwistMid_succ b j hj,
      untwistStep_apply_ne _ _ _ (Fin.ne_of_val_ne (show (i : ℕ) ≠ 311 - j by omega))]
    exact ih (by omega)

lemma untwistMid_stable (b : MTArr) {j₁ j₂ : ℕ} (h : j₁ ≤ j₂) (i : Fin 312)
    (hi : 312 - j₁ ≤ (i : ℕ)) : untwistMid b j₂ i = untwistMid b j₁ i := by
  induction j₂ with
  | zero =>
    have : j₁ = 0 := by omega
    rw [this]
  | succ j ih =>
    rcases Nat.lt_or_ge j₁ (j + 1) with hlt | hge
    · rcases Nat.lt_or_ge j 312 with hj | hj
      · rw [untwistMid_succ b j hj,
          untwistStep_apply_ne _ _ _ (Fin.ne_of_val_ne (show (i : ℕ) ≠ 311 - j by omega))]
        exact ih (by omega)
      · rw [untwistMid_succ_ge b j (by omega)]
        exact ih (by omega)
    · have : j₁ = j + 1 := by omega
      rw [this]

/-- The key step: if all cells above `k` are already restored to their
pre-twist values while cells up to `k` still hold the twisted words, the
untwist loop body at `k` writes the correct pre-twist word into cell `k`. -/
lemma untwistStep_core (a : MTArr) (ha : BoundedArr a) (k : Fin 312)
    (u : MTArr)
    (hu_hi : ∀ i : Fin 312, (k : ℕ) < (i : ℕ) → u i = untwistTarget a i)
    (hu_lo : ∀ i : Fin 312, (i : ℕ) ≤ (k : ℕ) → u i = twist a i) :
    untwistStep u k k = untwistTarget a k := by
  have hk311 := k.isLt
  -- the first-half read of cell k + 156
  have hread156 : u (k + 156) = twistS a k := by
    unfold twistS
    rcases Nat.lt_or_ge 155 (k : ℕ) with h | h
    · rw [if_pos h]
      exact hu_lo _ (by rw [val_add_156, if_pos h]; omega)
    · rw [if_neg (by omega)]
      rw [hu_hi _ (by rw [val_add_156, if_neg (by omega)]; omega)]
      unfold untwistTarget
      rw [if_neg (by rw [val_add_156, if_neg (by omega)]; omega)]
  have hreadk : u k = twist a k := hu_lo _ le_rfl
  have twist_xor_S : ∀ j : Fin 312, twist a j ^^^ twistS a j =
      (twistY a j >>> 1) ^^^ (if twistY a j &&& 1 = 1 then xor_mask else 0) := by
    intro j
    rw [twist_formula]
    exact xor_cancel_front _ _ _
  -- the first-half combination
  have hy1 : u k ^^^ u (k + 156) =
      (twistY a k >>> 1) ^^^ (if twistY a k &&& 1 = 1 then xor_mask else 0) := by
    rw [hreadk, hread156]
    exact twist_xor_S k
  have hne1 : (k - 1 : Fin 312) ≠ k := by
    refine Fin.ne_of_val_ne ?_
    rw [val_sub_one_eq]
    split <;> omega
  have hne2 : (k - 1 + 156 : Fin 312) ≠ k := by
    refine Fin.ne_of_val_ne ?_
    rw [val_sub_one_add_156]
    split <;> omega
  obtain ⟨hrec1, hrec2⟩ := recover_full (twistY a k) (twistY_lt a k)
  simp only [untwistStep]
  rw [Function.update_same, Function.update_noteq hne1, Function.update_noteq hne2,
    hy1, hrec1, shift_and_upper,
    show twistY a k &&& upper_mask = a k &&& upper_mask from or_masks_and_upper _ _]
  rcases Nat.eq_or_lt_of_le (Nat.zero_le (k : ℕ)) with hk0 | hk1
  · -- k = 0 : the lower bits come from the restored cells 311 and 155
    have hkz : k = 0 := Fin.ext hk0.symm
    subst hkz
    have e1 : ((0 : Fin 312) - 1 : Fin 312) = 311 := rfl
    have e2 : ((0 : Fin 312) - 1 + 156 : Fin 312) = 155 := rfl
    rw [e2, e1]
    have r1 : u 311 = a 311 := by
      rw [hu_hi 311 (by decide)]
      unfold untwistTarget
      rw [if_neg (by decide)]
    have r2 : u 155 = a 155 := by
      rw [hu_hi 155 (by decide)]
      unfold untwistTarget
      rw [if_neg (by decide)]
    rw [r1, r2]
    unfold untwistTarget
    rw [if_pos (show ((0 : Fin 312) : ℕ) = 0 from rfl)]
    unfold untwistZeroVal
    rfl
  · -- k ≥ 1 : the lower bits come from the twist step at k - 1
    have r1 : u (k - 1) = twist a (k - 1) := by
      refine hu_lo _ ?_
      rw [val_sub_one_eq, if_neg (by omega)]
      omega
    have r2 : u (k - 1 + 156) = twistS a (k - 1) := by
      unfold twistS
      rcases Nat.lt_or_ge 155 ((k - 1 : Fin 312) : ℕ) with h | h
      · rw [if_pos h]
        refine hu_lo _ ?_
        rw [val_sub_one_add_156, if_pos (by rw [val_sub_one_eq, if_neg (by omega)] at h; omega)]
        omega
      · rw [if_neg (by omega)]
        rw [val_sub_one_eq, if_neg (by omega)] at h
        rw [hu_hi _ (by rw [val_sub_one_add_156, if_neg (by omega)]; omega)]
        unfold untwistTarget
        rw [if_neg (by rw [val_sub_one_add_156, if_neg (by omega)]; omega)]
    rw [r1, r2, twist_xor_S (k - 1)]
    obtain ⟨hrec1', hrec2'⟩ := recover_full (twistY a (k - 1)) (twistY_lt a (k - 1))
    rw [hrec1', hrec2', assemble_or,
      show twistY a (k - 1) &&& lower_mask = twistB a (k - 1) &&& lower_mask from
        or_masks_and_lower _ _]
    have hB : twistB a (k - 1) = a k := by
      unfold twistB
      rw [if_neg (by rw [val_sub_one_eq, if_neg (by omega)]; have := k.isLt; omega),
        sub_one_add_one k hk1]
    rw [hB, and_upper_or_and_lower (a k) (ha k)]
    unfold untwistTarget
    rw [if_neg (by omega)]

lemma untwistMid_twist (a : MTArr) (ha : BoundedArr a) :
    ∀ j : ℕ, j ≤ 312 → ∀ i : Fin 312,
      untwistMid (twist a) j i =
        if 312 - j ≤ (i : ℕ) then untwistTarget a i else twist a i := by
  intro j
  induction j with
  | zero =>
    intro _ i
    rw [if_neg (by have := i.isLt; omega)]
    rfl
  | succ j ih =>
    intro hj i
    have hj' : j < 312 := by omega
    rw [untwistMid_succ _ j hj']
    rcases eq_or_ne i ⟨311 - j, by omega⟩ with rfl | hik
    · have hcore := untwistStep_core a ha ⟨311 - j, by omega⟩ (untwistMid (twist a) j)
        ?_ ?_
      · rw [hcore, if_pos (show 312 - (j + 1) ≤ 311 - j by omega)]
      · intro i hi
        have hi' : 311 - j < (i : ℕ) := hi
        rw [ih (by omega) i, if_pos (by omega)]
      · intro i hi
        have hi' : (i : ℕ) ≤ 311 - j := hi
        rw [ih (by omega) i, if_neg (by omega)]
    · rw [untwistStep_apply_ne _ _ _ hik, ih (by omega) i]
      have hvk : (i : ℕ) ≠ 311 - j := fun h => hik (Fin.ext h)
      by_cases hc : 312 - j ≤ (i : ℕ)
      · rw [if_pos hc, if_pos (by omega)]
      · rw [if_neg hc, if_neg (by omega)]

/-- The general effect of one untwist pass over one twist pass: every cell
except cell 0 is restored; cell 0 keeps its upper 33 bits and receives lower
bits reconstructed from cells 311 and 155. -/
lemma untwist_twist (a : MTArr) (ha : BoundedArr a) :
    untwist (twist a) = fun i => untwistTarget a i := by
  funext i
  show untwistMid (twist a) 312 i = _
  rw [untwistMid_twist a ha 312 le_rfl i, if_pos (by omega)]

/-- On a twist image the cell-0 reconstruction is exact: the recurrence links
cells 311 and 155 of a twisted array to the lower bits of its cell 0. -/
lemma untwistZeroVal_twist (a : MTArr) (hb : twist a 0 < 2 ^ 64) :
    untwistZeroVal (twist a) = twist a 0 := by
  have hS : twistS a 311 = twist a 155 := by
    unfold twistS
    rw [if_pos (by decide)]
    congr 1
  have hxor : twist a 311 ^^^ twist a 155 = (twistY a 311 >>> 1) ^^^
      (if twistY a 311 &&& 1 = 1 then xor_mask else 0) := by
    rw [← hS, twist_formula]
    exact xor_cancel_front _ _ _
  unfold untwistZeroVal
  rw [hxor]
  obtain ⟨h1, h2⟩ := recover_full (twistY a 311) (twistY_lt a 311)
  rw [h1, h2, assemble_or,
    show twistY a 311 &&& lower_mask = twistB a 311 &&& lower_mask from
      or_masks_and_lower _ _]
  have hB : twistB a 311 = twist a 0 := by
    unfold twistB
    rw [if_pos (by decide)]
    congr 1
  rw [hB]
  exact and_upper_or_and_lower _ hb

/-- The heart of the Mersenne reversal: untwist undoes twist on every array
that is itself a twist image (every block reached after at least one forward
twist). -/
lemma untwist_twist_image (a₀ : MTArr) (hb : BoundedArr (twist a₀)) :
    untwist (twist (twist a₀)) = twist a₀ := by
  rw [untwist_twist (twist a₀) hb]
  funext i
  show untwistTarget (twist a₀) i = twist a₀ i
  unfold untwistTarget
  split
  · rename_i h
    have hi : i = 0 := Fin.ext h
    rw [hi, untwistZeroVal_twist a₀ (hb 0)]
  · rfl

/-! ### The Mersenne round trip -/

/-- Invariant carried along the forward draws: bounded words, the array is a
twist image, and the position does not exceed 312. -/
def MTInv (m : MT) : Prop :=
  BoundedArr m.state ∧ (∃ a₀, m.state = twist a₀) ∧ m.pos ≤ 312

lemma mtNext_inv (m : MT) (h : MTInv m) : MTInv (mtNext m).1 := by
  obtain ⟨hb, himg, hpos⟩ := h
  unfold mtNext
  split
  · exact ⟨hb, himg, by rename_i hlt; show m.pos + 1 ≤ 312; omega⟩
  · exact ⟨twist_bounded _ hb, ⟨m.state, rfl⟩, by norm_num⟩

lemma mtNext_boundary (t : MT) (h : ¬ t.pos < 312) :
    mtNext t = (⟨twist t.state, 1⟩, temper (twist t.state 0)) := by
  unfold mtNext
  rw [dif_neg h]

lemma mtPrev_pos_one (st : MTArr) : mtPrev ⟨st, 1⟩ = (⟨st, 0⟩, temper (st 0)) := by
  unfold mtPrev
  have h : ¬ (⟨st, 1⟩ : MT).pos = 0 := by simp
  rw [if_neg h]
  rfl

lemma mtPrev_pos_zero (st : MTArr) :
    mtPrev ⟨st, 0⟩ = (⟨untwist st, 311⟩, temper (untwist st 311)) := by
  unfold mtPrev
  rw [if_pos rfl]

lemma mtPrev_pos_312 (st : MTArr) : mtPrev ⟨st, 312⟩ = (⟨st, 311⟩, temper (st 311)) := by
  unfold mtPrev
  have h : ¬ (⟨st, 312⟩ : MT).pos = 0 := by simp
  rw [if_neg h]
  rfl

lemma mtPrev_mtNext (t : MT) (ht : t.pos < 312) :
    mtPrev (mtNext t).1 = (t, (mtNext t).2) := by
  unfold mtNext
  rw [dif_pos ht]
  show mtPrev ⟨t.state, t.pos + 1⟩ = _
  unfold mtPrev
  rw [if_neg (by simp)]
  refine Prod.ext ?_ ?_
  · show (⟨t.state, t.pos + 1 - 1⟩ : MT) = t
    rfl
  · show temper (t.state ⟨(t.pos + 1 - 1) % 312, _⟩) = temper (t.state ⟨t.pos, ht⟩)
    exact congrArg temper
      (congrArg t.state (Fin.ext (show (t.pos + 1 - 1) % 312 = t.pos by omega)))

lemma mtRoundtrip_aux (k : ℕ) : ∀ m : MT, BoundedArr m.state →
    (∃ a₀, m.state = twist a₀) → m.pos ≤ 311 →
    iterRev mtPrev (iterN mtNext m k).1 k = (m, (iterN mtNext m k).2.reverse) := by
  induction k with
  | zero =>
    intro m _ _ _
    simp [iterN, iterRev]
  | succ k ih =>
    intro m hb himg hpos
    have hInvm : MTInv m := ⟨hb, himg, by omega⟩
    have hp := iterN_inv mtNext MTInv mtNext_inv k m hInvm
    obtain ⟨hpb, hpimg, hppos⟩ := hp
    simp only [iterN, iterRev]
    rcases Nat.lt_or_ge (iterN mtNext m k).1.pos 312 with hlt | hge
    · rw [mtPrev_mtNext _ hlt]
      simp [ih m hb himg hpos]
    · -- the forward step at the twist boundary: the backward pass heals by
      -- untwisting the freshly twisted block
      have ht312 : (iterN mtNext m k).1.pos = 312 := by omega
      have hk1 : 1 ≤ k := by
        by_contra hk0
        have hke : k = 0 := by omega
        rw [hke] at ht312
        have hit0 : (iterN mtNext m 0).1 = m := rfl
        rw [hit0] at ht312
        omega
      obtain ⟨a₀, ha₀⟩ := hpimg
      have hq : mtNext (iterN mtNext m k).1 =
          (⟨twist (iterN mtNext m k).1.state, 1⟩,
            temper (twist (iterN mtNext m k).1.state 0)) :=
        mtNext_boundary _ (by omega)
      have hun : untwist (twist (iterN mtNext m k).1.state) =
          (iterN mtNext m k).1.state := by
        rw [ha₀]
        exact untwist_twist_image a₀ (ha₀ ▸ hpb)
      have hheal : mtPrev ⟨twist (iterN mtNext m k).1.state, 0⟩ =
          (⟨(iterN mtNext m k).1.state, 311⟩,
            temper ((iterN mtNext m k).1.state 311)) := by
        rw [mtPrev_pos_zero, hun]
      have hiter : iterRev mtPrev ⟨twist (iterN mtNext m k).1.state, 0⟩ k =
          iterRev mtPrev ⟨(iterN mtNext m k).1.state, 312⟩ k := by
        obtain ⟨k', rfl⟩ : ∃ k', k = k' + 1 := ⟨k - 1, by omega⟩
        simp only [iterRev]
        rw [hheal, mtPrev_pos_312]
      have hteta : (⟨(iterN mtNext m k).1.state, 312⟩ : MT) = (iterN mtNext m k).1 := by
        rw [← ht312]
      simp only [hq, mtPrev_pos_one]
      rw [hiter, hteta, ih m hb himg hpos]
      simp

/-- C4 amended: for the ReversibleMersenne engine, from every state whose
array is a twist image (any state reached after at least one forward draw)
with `pos ≤ 311` and 64-bit words, `k` forward draws followed by `k` backward
draws — crossing any number of twist boundaries — emit the same `k` outputs in
reverse order and restore the engine to a state equal under `operator==`
(all 312 words and `pos`).  At a freshly seeded state (`pos = 312`, array not
a twist image) the round trip instead lands at the output-equivalent but
bitwise-different state with the twisted array and `pos = 0` (see the
counterexample), and the cell-0 low bits are only reconstructible on twist
images. -/
theorem C4_amended_mersenne_roundtrip (m : MT) (hb : BoundedArr m.state)
    (himg : ∃ a₀, m.state = twist a₀) (hpos : m.pos ≤ 311) (k : ℕ) :
    iterRev mtPrev (iterN mtNext m k).1 k = (m, (iterN mtNext m k).2.reverse) :=
  mtRoundtrip_aux k m hb himg hpos

/-- Counterexample to C4 as stated: at the freshly seeded default engine
(seed 5489, `pos = 312`) and `k = 1`, one `next()` followed by one
`previous()` does not restore the engine state under `operator==` (the round
trip ends at `pos = 0` with the twisted array, the pre-draw state had
`pos = 312` with the untwisted array). -/
theorem C4_counterexample :
    ¬ ((mtPrev (mtNext (mtSeed 5489)).1).1 = mtSeed 5489 ∧
       (mtPrev (mtNext (mtSeed 5489)).1).2 = (mtNext (mtSeed 5489)).2) := by
  rintro ⟨h, -⟩
  have h2 : (0 : ℕ) = 312 := congrArg MT.pos h
  exact absurd h2 (by norm_num)

lemma mtSeedWord_lt (sd : ℕ) (hsd : sd < 2 ^ 64) : ∀ i, mtSeedWord sd i < 2 ^ 64 := by
  intro i
  cases i with
  | zero => exact hsd
  | succ i =>
    show (_ * 6364136223846793005 + (i + 1)) % W64 < 2 ^ 64
    exact Nat.mod_lt _ (by norm_num [W64])

/-- Witness for the amended C4: the state one twist past the default seed, at
position 3, with seven draws forward and back (crossing a block boundary both
ways). -/
theorem C4_amended_mersenne_roundtrip_witness :
    (BoundedArr (twist fun i => mtSeedWord 5489 i) ∧
      (∃ a₀, (twist fun i => mtSeedWord 5489 i) = twist a₀) ∧ (3 : ℕ) ≤ 311) ∧
    iterRev mtPrev
        (iterN mtNext ⟨twist fun i => mtSeedWord 5489 i, 3⟩ 7).1 7 =
      (⟨twist fun i => mtSeedWord 5489 i, 3⟩,
        (iterN mtNext ⟨twist fun i => mtSeedWord 5489 i, 3⟩ 7).2.reverse) := by
  have hb : BoundedArr (twist fun i => mtSeedWord 5489 i) :=
    twist_bounded _ (fun i => mtSeedWord_lt 5489 (by norm_num) i)
  exact ⟨⟨hb, ⟨_, rfl⟩, by norm_num⟩,
    C4_amended_mersenne_roundtrip _ hb ⟨_, rfl⟩ (by norm_num) 7⟩

/-! ### Seed-sequence seeding (C10)

`ReversibleMersenne::seed(Sseq&)` and `Xoshiro256::seed(Sseq&)` fill a
two-element array of 32-bit words from the sequence and delegate to the
integer seeding with `uint64(arr[1]) << 32 | arr[0]`.  A seed sequence is
modelled by the stream of 32-bit words its `generate` produces; the words are
stored in `uint32`, hence the reductions modulo 2^32. -/

/-- Source `ReversibleMersenne::seed<Sseq>` (src/src/mersenne.h lines 72-78). -/
def mtSeedSeq (q : ℕ → ℕ) : MT :=
  mtSeed (((q 1 % 2 ^ 32) <<< 32) ||| (q 0 % 2 ^ 32))

/-- Source `Xoshiro256::seed<Sseq>` (src/src/xoshiro.h lines 94-101). -/
def xoshiroSeedSeq (q : ℕ → ℕ) : Xoshiro :=
  xoshiroSeedState (((q 1 % 2 ^ 32) <<< 32) ||| (q 0 % 2 ^ 32))

/-- C10: seeding ReversibleMersenne or Xoshiro256 from a seed sequence reads
exactly the first two generated 32-bit words, and equals the integer seeding
with `uint64(w1) << 32 | w0`; consequently two sequences agreeing on those two
words produce equal engines with identical output streams. -/
theorem C10_seed_seq_uses_two_words (q1 q2 : ℕ → ℕ)
    (h0 : q1 0 % 2 ^ 32 = q2 0 % 2 ^ 32) (h1 : q1 1 % 2 ^ 32 = q2 1 % 2 ^ 32) :
    (mtSeedSeq q1 = mtSeed (((q1 1 % 2 ^ 32) <<< 32) ||| (q1 0 % 2 ^ 32)) ∧
     xoshiroSeedSeq q1 = xoshiroSeedState (((q1 1 % 2 ^ 32) <<< 32) ||| (q1 0 % 2 ^ 32))) ∧
    mtSeedSeq q1 = mtSeedSeq q2 ∧
    xoshiroSeedSeq q1 = xoshiroSeedSeq q2 ∧
    (∀ n, (iterN mtNext (mtSeedSeq q1) n).2 = (iterN mtNext (mtSeedSeq q2) n).2) ∧
    (∀ n, xoshiroStream (xoshiroSeedSeq q1) n = xoshiroStream (xoshiroSeedSeq q2) n) := by
  have hmt : mtSeedSeq q1 = mtSeedSeq q2 := by
    unfold mtSeedSeq
    rw [h0, h1]
  have hxo : xoshiroSeedSeq q1 = xoshiroSeedSeq q2 := by
    unfold xoshiroSeedSeq
    rw [h0, h1]
  exact ⟨⟨rfl, rfl⟩, hmt, hxo, fun n => by rw [hmt], fun n => by rw [hxo]⟩

/-- Witness for C10 at two concrete seed sequences agreeing on their first two
words and differing from the third word on. -/
theorem C10_seed_seq_uses_two_words_witness :
    ((fun n : ℕ => n + 7) 0 % 2 ^ 32 = (fun n : ℕ => if n < 2 then n + 7 else 99) 0 % 2 ^ 32 ∧
     (fun n : ℕ => n + 7) 1 % 2 ^ 32 = (fun n : ℕ => if n < 2 then n + 7 else 99) 1 % 2 ^ 32) ∧
    mtSeedSeq (fun n => n + 7) = mtSeedSeq (fun n => if n < 2 then n + 7 else 99) :=
  ⟨⟨by norm_num, by norm_num⟩,
    (C10_seed_seq_uses_two_words (fun n => n + 7) (fun n => if n < 2 then n + 7 else 99)
      (by norm_num) (by norm_num)).2.1⟩

/-! ### The uniform integer distribution (C6, C7)

`UniformIntDistribution<int64>::operator()` (src/src/uniform.h lines 129-169)
over an engine of range `urngRange` (its `max - min`, with `min = 0` as for
every engine of the library).  The embedding tracks the words read from the
engine stream and the index after the call; the rejection loops take fuel. -/

/-- Conversion of a 64-bit unsigned word to the signed 64-bit result type
(two's complement). -/
def toInt64 (n : ℕ) : ℤ :=
  if n % 2 ^ 64 < 2 ^ 63 then (n % 2 ^ 64 : ℤ) else (n % 2 ^ 64 : ℤ) - 2 ^ 64

/-- Conversion of the signed parameter `a` to the unsigned common type. -/
def uint64OfInt (z : ℤ) : ℕ := (z % 2 ^ 64).toNat

/-- The rejection loop of `util::lemires` (src/src/uniform.h lines 31-47):
draw a word, form the 128-bit product with `range`, reject while the low
64 bits are below the threshold; on acceptance return the high 64 bits and
the next stream index.  A word is rejected iff its low product bits are below
`threshold = 2^64 mod range`, which is exactly the source's guarded loop. -/
def lemiresAux (stream : ℕ → ℕ) (range threshold : ℕ) : ℕ → ℕ → Option (ℕ × ℕ)
  | _, 0 => none
  | idx, fuel + 1 =>
    let product := stream idx * range
    if product % 2 ^ 64 < threshold then lemiresAux stream range threshold (idx + 1) fuel
    else some (product >>> 64, idx + 1)

/-- Source `util::lemires`: the threshold is `(-range) mod range` in 64-bit
arithmetic, i.e. `(2^64 - range) mod range`. -/
def lemires (stream : ℕ → ℕ) (range idx fuel : ℕ) : Option (ℕ × ℕ) :=
  lemiresAux stream range ((2 ^ 64 - range) % range) idx fuel

/-- The modulo rejection loop of the `urng_range > dist_range` branch for
engines narrower than 64 bits (src/src/uniform.h lines 148-154): redraw while
the word is at or above the threshold. -/
def modLoop (stream : ℕ → ℕ) (threshold : ℕ) : ℕ → ℕ → Option (ℕ × ℕ)
  | _, 0 => none
  | idx, fuel + 1 =>
    let result := stream idx
    if result ≥ threshold then modLoop stream threshold (idx + 1) fuel
    else some (result, idx + 1)

/-- Outcome of one `UniformIntDistribution::operator()` call: a sample with
the number of engine words consumed, the range-unsupported `runtime_error`, or
fuel exhaustion of a rejection loop. -/
inductive UIntOut where
  | ok (v : ℤ) (consumed : ℕ)
  | rangeError
  | fuelOut
  deriving DecidableEq

/-- `UniformIntDistribution<int64>::operator()` instantiated at a 64-bit
engine: the constexpr block applies Lemire's reduction whenever the engine
range exceeds the distribution range; the equal-range path adds `a` to the
raw word; wider distribution ranges cannot arise at this type but the source
would throw. -/
def uniformIntOp64 (a b : ℤ) (stream : ℕ → ℕ) (idx fuel : ℕ) : UIntOut :=
  if (b - a).toNat < 2 ^ 64 - 1 then
    match lemires stream ((b - a).toNat + 1) idx fuel with
    | none => .fuelOut
    | some (l, idx') => .ok (toInt64 ((l + uint64OfInt a) % 2 ^ 64)) (idx' - idx)
  else if (b - a).toNat = 2 ^ 64 - 1 then
    .ok (toInt64 ((stream idx + uint64OfInt a) % 2 ^ 64)) 1
  else .rangeError

/-- `UniformIntDistribution<int64>::operator()` over an engine of range
`urngRange`: 64-bit engines take the Lemire path; otherwise the equal-range
path, the modulo rejection path, the three-word reversible widening path for
32-bit engines (which seeds a transient Xoshiro256 and recurses at 64 bits),
or the range-unsupported error. -/
def uniformIntOp (urngRange : ℕ) (a b : ℤ) (stream : ℕ → ℕ) (idx fuel : ℕ) : UIntOut :=
  if urngRange = 2 ^ 64 - 1 then uniformIntOp64 a b stream idx fuel
  else if urngRange = (b - a).toNat then
    .ok (toInt64 ((stream idx + uint64OfInt a) % 2 ^ 64)) 1
  else if (b - a).toNat < urngRange then
    match modLoop stream (urngRange - urngRange % ((b - a).toNat + 1)) idx fuel with
    | none => .fuelOut
    | some (r, idx') =>
      .ok (toInt64 ((r % ((b - a).toNat + 1) + uint64OfInt a) % 2 ^ 64)) (idx' - idx)
  else if urngRange = 2 ^ 32 - 1 then
    match uniformIntOp64 a b
        (xoshiroStream (xoshiroSeedState
          (((stream idx ^^^ stream (idx + 2)) <<< 32) ||| stream (idx + 1)))) 0 fuel with
    | .ok v _ => .ok v 3
    | .rangeError => .rangeError
    | .fuelOut => .fuelOut
  else .rangeError

lemma uniformIntOp64_ne_rangeError (a b : ℤ) (_hab : a ≤ b) (ha : -2 ^ 63 ≤ a)
    (hb : b < 2 ^ 63) (stream : ℕ → ℕ) (idx fuel : ℕ) :
    uniformIntOp64 a b stream idx fuel ≠ .rangeError := by
  have hd : (b - a).toNat ≤ 2 ^ 64 - 1 := by omega
  unfold uniformIntOp64
  rcases Nat.lt_or_ge ((b - a).toNat) (2 ^ 64 - 1) with h | h
  · rw [if_pos h]
    rcases hm : lemires stream ((b - a).toNat + 1) idx fuel with - | ⟨l, idx'⟩ <;>
      simp [hm]
  · have he : (b - a).toNat = 2 ^ 64 - 1 := by omega
    rw [if_neg (by omega), if_pos he]
    simp

/-- C7: `UniformIntDistribution::operator()` throws the range-unsupported
`runtime_error` exactly when the distribution range `b - a` exceeds the
engine range and the engine is not a 32-bit source (which would take the
reversible three-word widening path); and on failure the outcome is
independent of the engine stream, its position, and the loop fuel — no
engine output is consumed and no partial sample is produced (the parameters
`a`, `b` are read-only throughout). -/
theorem C7_range_unsupported_iff (urngRange : ℕ) (a b : ℤ) (hab : a ≤ b)
    (ha : -2 ^ 63 ≤ a) (hb : b < 2 ^ 63)
    (stream : ℕ → ℕ) (idx fuel : ℕ) :
    (uniformIntOp urngRange a b stream idx fuel = .rangeError ↔
      (urngRange < (b - a).toNat ∧ urngRange ≠ 2 ^ 32 - 1)) ∧
    ((urngRange < (b - a).toNat ∧ urngRange ≠ 2 ^ 32 - 1) →
      ∀ (stream' : ℕ → ℕ) (idx' fuel' : ℕ),
        uniformIntOp urngRange a b stream' idx' fuel' = .rangeError) := by
  have main : ∀ (s : ℕ → ℕ) (i f : ℕ),
      uniformIntOp urngRange a b s i f = .rangeError ↔
        (urngRange < (b - a).toNat ∧ urngRange ≠ 2 ^ 32 - 1) := by
    intro s i f
    unfold uniformIntOp
    rcases eq_or_ne urngRange (2 ^ 64 - 1) with h64 | h64
    · rw [if_pos h64]
      constructor
      · intro hcontra
        exact absurd hcontra (uniformIntOp64_ne_rangeError a b hab ha hb s i f)
      · rintro ⟨hlt, -⟩
        exfalso
        have : (b - a).toNat ≤ 2 ^ 64 - 1 := by omega
        omega
    · rw [if_neg h64]
      rcases eq_or_ne urngRange ((b - a).toNat) with heq | heq
      · rw [if_pos heq]
        constructor
        · intro hcontra
          exact absurd hcontra (by simp)
        · rintro ⟨hlt, -⟩
          omega
      · rw [if_neg heq]
        rcases Nat.lt_or_ge ((b - a).toNat) urngRange with hlt | hge
        · rw [if_pos hlt]
          constructor
          · intro hcontra
            rcases hm : modLoop s (urngRange - urngRange % ((b - a).toNat + 1)) i f with
              - | ⟨r, i'⟩ <;> rw [hm] at hcontra <;> simp at hcontra
          · rintro ⟨hlt', -⟩
            omega
        · rw [if_neg (by omega)]
          rcases eq_or_ne urngRange (2 ^ 32 - 1) with h32 | h32
          · rw [if_pos h32]
            constructor
            · intro hcontra
              rcases hm : uniformIntOp64 a b
                  (xoshiroStream (xoshiroSeedState (((s i ^^^ s (i + 2)) <<< 32) ||| s (i + 1))))
                  0 f with ⟨v, c⟩ | - | -
              · rw [hm] at hcontra
                simp at hcontra
              · exact absurd hm (uniformIntOp64_ne_rangeError a b hab ha hb _ _ _)
              · rw [hm] at hcontra
                simp at hcontra
            · rintro ⟨-, hne⟩
              exact absurd h32 hne
          · rw [if_neg h32]
            constructor
            · intro _
              exact ⟨by omega, h32⟩
            · intro _
              rfl
  exact ⟨main stream idx fuel, fun hc stream' idx' fuel' => (main stream' idx' fuel').2 hc⟩

/-- Witness for C7 at a 16-bit engine (range 2^16 - 1) asked for the range
`[0, 2^20]`: the call fails with the range-unsupported error. -/
theorem C7_range_unsupported_iff_witness :
    ((0 : ℤ) ≤ 2 ^ 20 ∧ -2 ^ 63 ≤ (0 : ℤ) ∧ (2 ^ 20 : ℤ) < 2 ^ 63) ∧
    (uniformIntOp (2 ^ 16 - 1) 0 (2 ^ 20) (fun _ => 5) 0 9 = .rangeError ↔
      (2 ^ 16 - 1 < ((2 ^ 20 : ℤ) - 0).toNat ∧ (2 ^ 16 - 1 : ℕ) ≠ 2 ^ 32 - 1)) := by
  refine ⟨⟨by norm_num, by norm_num, by norm_num⟩, ?_⟩
  exact (C7_range_unsupported_iff (2 ^ 16 - 1) 0 (2 ^ 20) (by norm_num) (by norm_num)
    (by norm_num) (fun _ => 5) 0 9).1

/-! ### The Ziggurat normal distribution (src/reverse.hpp lines 419-596) -/

/-- The `KN` rectangle boundary table of the Ziggurat sampler. -/
def KNlist : List ℕ :=
  [0x76ad2212, 0x0, 0x600f1b53, 0x6ce447a6, 0x725b46a2, 0x7560051d, 
   0x774921eb, 0x789a25bd, 0x799045c3, 0x7a4bce5d, 0x7adf629f, 
   0x7b5682a6, 0x7bb8a8c6, 0x7c0ae722, 0x7c50cce7, 0x7c8cec5b, 
   0x7cc12cd6, 0x7ceefed2, 0x7d177e0b, 0x7d3b8883, 0x7d5bce6c, 
   0x7d78dd64, 0x7d932886, 0x7dab0e57, 0x7dc0dd30, 0x7dd4d688, 
   0x7de73185, 0x7df81cea, 0x7e07c0a3, 0x7e163efa, 0x7e23b587, 
   0x7e303dfd, 0x7e3beec2, 0x7e46db77, 0x7e51155d, 0x7e5aabb3, 
   0x7e63abf7, 0x7e6c222c, 0x7e741906, 0x7e7b9a18, 0x7e82adfa, 
   0x7e895c63, 0x7e8fac4b, 0x7e95a3fb, 0x7e9b4924, 0x7ea0a0ef, 
   0x7ea5b00d, 0x7eaa7ac3, 0x7eaf04f3, 0x7eb3522a, 0x7eb765a5, 
   0x7ebb4259, 0x7ebeeafd, 0x7ec2620a, 0x7ec5a9c4, 0x7ec8c441, 
   0x7ecbb365, 0x7ece78ed, 0x7ed11671, 0x7ed38d62, 0x7ed5df12, 
   0x7ed80cb4, 0x7eda175c, 0x7edc0005, 0x7eddc78e, 0x7edf6ebf, 
   0x7ee0f647, 0x7ee25ebe, 0x7ee3a8a9, 0x7ee4d473, 0x7ee5e276, 
   0x7ee6d2f5, 0x7ee7a620, 0x7ee85c10, 0x7ee8f4cd, 0x7ee97047, 
   0x7ee9ce59, 0x7eea0eca, 0x7eea3147, 0x7eea3568, 0x7eea1aab, 
   0x7ee9e071, 0x7ee98602, 0x7ee90a88, 0x7ee86d08, 0x7ee7ac6a, 
   0x7ee6c769, 0x7ee5bc9c, 0x7ee48a67, 0x7ee32efc, 0x7ee1a857, 
   0x7edff42f, 0x7ede0ffa, 0x7edbf8d9, 0x7ed9ab94, 0x7ed7248d, 
   0x7ed45fae, 0x7ed1585c, 0x7ece095f, 0x7eca6ccb, 0x7ec67be2, 
   0x7ec22eee, 0x7ebd7d1a, 0x7eb85c35, 0x7eb2c075, 0x7eac9c20, 
   0x7ea5df27, 0x7e9e769f, 0x7e964c16, 0x7e8d44ba, 0x7e834033, 
   0x7e781728, 0x7e6b9933, 0x7e5d8a1a, 0x7e4d9ded, 0x7e3b737a, 
   0x7e268c2f, 0x7e0e3ff5, 0x7df1aa5d, 0x7dcf8c72, 0x7da61a1e, 
   0x7d72a0fb, 0x7d30e097, 0x7cd9b4ab, 0x7c600f1a, 0x7ba90bdc, 
   0x7a722176, 0x77d664e5]

/-- The `FN` density table of the Ziggurat sampler, decimal literals read
as exact rationals. -/
def FNlist : List ℚ :=
  [1, 0.9635997, 0.9362827, 0.9130436, 0.89228165, 0.87324303, 
   0.8555006, 0.8387836, 0.8229072, 0.8077383, 0.793177, 0.7791461, 
   0.7655842, 0.7524416, 0.73967725, 0.7272569, 0.7151515, 0.7033361, 
   0.69178915, 0.68049186, 0.6694277, 0.658582, 0.6479418, 0.63749546, 
   0.6272325, 0.6171434, 0.6072195, 0.5974532, 0.58783704, 0.5783647, 
   0.56903, 0.5598274, 0.5507518, 0.54179835, 0.5329627, 0.52424055, 
   0.5156282, 0.50712204, 0.49871865, 0.49041483, 0.48220766, 
   0.4740943, 0.46607214, 0.4581387, 0.45029163, 0.44252872, 
   0.43484783, 0.427247, 0.41972435, 0.41227803, 0.40490642, 
   0.39760786, 0.3903808, 0.3832238, 0.37613547, 0.36911446, 0.3621595, 
   0.35526937, 0.34844297, 0.34167916, 0.33497685, 0.3283351, 
   0.3217529, 0.3152294, 0.30876362, 0.30235484, 0.29600215, 
   0.28970486, 0.2834622, 0.2772735, 0.27113807, 0.2650553, 0.25902456, 
   0.2530453, 0.24711695, 0.241239, 0.23541094, 0.22963232, 0.2239027, 
   0.21822165, 0.21258877, 0.20700371, 0.20146611, 0.19597565, 
   0.19053204, 0.18513499, 0.17978427, 0.17447963, 0.1692209, 
   0.16400786, 0.15884037, 0.15371831, 0.14864157, 0.14361008, 
   0.13862377, 0.13368265, 0.12878671, 0.12393598, 0.119130544, 
   0.11437051, 0.10965602, 0.104987256, 0.10036444, 0.095787846, 
   0.0912578, 0.08677467, 0.0823389, 0.077950984, 0.073611505, 
   0.06932112, 0.06508058, 0.06089077, 0.056752663, 0.0526674, 
   0.048636295, 0.044660863, 0.040742867, 0.03688439, 0.033087887, 
   0.029356318, 0.025693292, 0.022103304, 0.018592102, 0.015167298, 
   0.011839478, 0.008624485, 0.005548995, 0.0026696292]

/-- The `WN` scaling table of the Ziggurat sampler, decimal literals read
as exact rationals. -/
def WNlist : List ℚ :=
  [1.7290405e-09, 1.2680929e-10, 1.6897518e-10, 1.9862688e-10, 
   2.2232431e-10, 2.4244937e-10, 2.601613e-10, 2.7611988e-10, 
   2.9073963e-10, 3.042997e-10, 3.1699796e-10, 3.289802e-10, 
   3.4035738e-10, 3.5121603e-10, 3.616251e-10, 3.7164058e-10, 
   3.8130857e-10, 3.9066758e-10, 3.9975012e-10, 4.08584e-10, 
   4.1719309e-10, 4.2559822e-10, 4.338176e-10, 4.418672e-10, 
   4.497613e-10, 4.5751258e-10, 4.651324e-10, 4.7263105e-10, 
   4.8001775e-10, 4.87301e-10, 4.944885e-10, 5.015873e-10, 
   5.0860405e-10, 5.155446e-10, 5.2241467e-10, 5.2921934e-10, 
   5.359635e-10, 5.426517e-10, 5.4928817e-10, 5.5587696e-10, 
   5.624219e-10, 5.6892646e-10, 5.753941e-10, 5.818282e-10, 
   5.882317e-10, 5.946077e-10, 6.00959e-10, 6.072884e-10, 6.135985e-10, 
   6.19892e-10, 6.2617134e-10, 6.3243905e-10, 6.386974e-10, 
   6.449488e-10, 6.511956e-10, 6.5744005e-10, 6.6368433e-10, 
   6.699307e-10, 6.7618144e-10, 6.824387e-10, 6.8870465e-10, 
   6.949815e-10, 7.012715e-10, 7.075768e-10, 7.1389966e-10, 
   7.202424e-10, 7.266073e-10, 7.329966e-10, 7.394128e-10, 
   7.4585826e-10, 7.5233547e-10, 7.58847e-10, 7.653954e-10, 
   7.719835e-10, 7.7861395e-10, 7.852897e-10, 7.920138e-10, 
   7.987892e-10, 8.0561924e-10, 8.125073e-10, 8.194569e-10, 
   8.2647167e-10, 8.3355556e-10, 8.407127e-10, 8.479473e-10, 
   8.55264e-10, 8.6266755e-10, 8.7016316e-10, 8.777562e-10, 
   8.8545243e-10, 8.932582e-10, 9.0117996e-10, 9.09225e-10, 
   9.174008e-10, 9.2571584e-10, 9.341788e-10, 9.427997e-10, 
   9.515889e-10, 9.605579e-10, 9.697193e-10, 9.790869e-10, 9.88676e-10, 
   9.985036e-10, 1.0085882e-09, 1.0189509e-09, 1.0296151e-09, 
   1.0406069e-09, 1.0519566e-09, 1.063698e-09, 1.0758702e-09, 
   1.0885183e-09, 1.1016947e-09, 1.1154611e-09, 1.1298902e-09, 
   1.1450696e-09, 1.1611052e-09, 1.1781276e-09, 1.1962995e-09, 
   1.2158287e-09, 1.2369856e-09, 1.2601323e-09, 1.2857697e-09, 
   1.3146202e-09, 1.347784e-09, 1.3870636e-09, 1.4357403e-09, 
   1.5008659e-09, 1.6030948e-09]

/-- Rectangle boundary of the Ziggurat, `R = 3.442619855899`. -/
def Rzig : ℚ := 3.442619855899

/-- Table lookup `KN[i]` (out-of-range indices cannot arise: the index is
masked to 7 bits). -/
def KN (i : ℕ) : ℕ := KNlist.getD i 0

/-- Table lookup `FN[i]`. -/
def FN (i : ℕ) : ℚ := FNlist.getD i 0

/-- Table lookup `WN[i]`. -/
def WN (i : ℕ) : ℚ := WNlist.getD i 0

/-- Conversion of an unsigned word to `int32` (two's complement), as in
`const std::int32_t r = rand >> 8`. -/
def toInt32 (n : ℕ) : ℤ :=
  if n % 2 ^ 32 < 2 ^ 31 then (n % 2 ^ 32 : ℤ) else (n % 2 ^ 32 : ℤ) - 2 ^ 32

/-- `index = rand & 0x7f`: the rectangle index of a sample word. -/
def zigIndex (rand : ℕ) : ℕ := rand &&& 0x7f

/-- `r = (int32)(rand >> 8)`. -/
def zigR (rand : ℕ) : ℤ := toInt32 (rand >>> 8)

/-- `x = r * WN[index]`, exact. -/
def zigX (rand : ℕ) : ℚ := (zigR rand : ℚ) * WN (zigIndex rand)

/-- The common-path test `abs(r) < KN[index]`. -/
def rectangleHit (rand : ℕ) : Prop := (zigR rand).natAbs < KN (zigIndex rand)

instance (rand : ℕ) : Decidable (rectangleHit rand) := Nat.decLt _ _

/-- The `n`-th canonical draw of the transient auxiliary generator
`Xoshiro256 rng(rand)` used by the tail and wedge branches. -/
def auxCanon (rand n : ℕ) : ℚ := float64Q (xoshiroStream (xoshiroSeedState rand) n)

/-- The wedge test `FN[index] + canonical(rng) * (FN[index-1] - FN[index]) <
exp(-0.5 * x * x)`, with the comparison over the reals. -/
def wedgeAccept (rand : ℕ) : Prop :=
  ((FN (zigIndex rand) + auxCanon rand 0 * (FN (zigIndex rand - 1) - FN (zigIndex rand)) : ℚ) : ℝ) <
    Real.exp ((-0.5 : ℝ) * ((zigX rand : ℚ) : ℝ) * ((zigX rand : ℚ) : ℝ))

/-- Tail iteration `t`: `xx = -log1p(-canonical(rng)) / R`, consuming aux
draw `2t`. -/
noncomputable def tailXX (rand t : ℕ) : ℝ :=
  -Real.log (1 - ((auxCanon rand (2 * t) : ℚ) : ℝ)) / ((Rzig : ℚ) : ℝ)

/-- Tail iteration `t`: `yy = -log1p(-canonical(rng))`, consuming aux draw
`2t + 1`. -/
noncomputable def tailYY (rand t : ℕ) : ℝ :=
  -Real.log (1 - ((auxCanon rand (2 * t + 1) : ℚ) : ℝ))

/-- Exit condition of the tail do-while loop at iteration `t`:
`¬ (yy + yy < xx * xx)`. -/
def tailStop (rand t : ℕ) : Prop :=
  ¬ (tailYY rand t + tailYY rand t < tailXX rand t * tailXX rand t)

/-- The tail return value `0 < r ? R + xx : -(R + xx)`. -/
noncomputable def tailVal (rand t : ℕ) : ℝ :=
  if 0 < zigR rand then ((Rzig : ℚ) : ℝ) + tailXX rand t
  else -(((Rzig : ℚ) : ℝ) + tailXX rand t)

/-- One accepted sample of `NormalDistribution::ziggurat` over the outer word
stream: `ZigSample stream idx idx' v` holds when the sampler entered at
cursor `idx`, returned the standard normal variate `v`, and left the cursor
at `idx'` (having consumed the outer words `stream idx … stream (idx' - 1)`).
Each iteration of the source's `while (true)` loop consumes exactly one
outer word; the tail branch resolves within its iteration from the auxiliary
generator, and a failed wedge test continues the loop. -/
inductive ZigSample (stream : ℕ → ℕ) : ℕ → ℕ → ℝ → Prop
  | rect (idx : ℕ) :
      rectangleHit (stream idx) →
      ZigSample stream idx (idx + 1) ((zigX (stream idx) : ℚ) : ℝ)
  | tail (idx t : ℕ) :
      ¬ rectangleHit (stream idx) → zigIndex (stream idx) = 0 →
      (∀ t' < t, ¬ tailStop (stream idx) t') → tailStop (stream idx) t →
      ZigSample stream idx (idx + 1) (tailVal (stream idx) t)
  | wedge (idx : ℕ) :
      ¬ rectangleHit (stream idx) → zigIndex (stream idx) ≠ 0 →
      wedgeAccept (stream idx) →
      ZigSample stream idx (idx + 1) ((zigX (stream idx) : ℚ) : ℝ)
  | wedgeReject (idx idx' : ℕ) (v : ℝ) :
      ¬ rectangleHit (stream idx) → zigIndex (stream idx) ≠ 0 →
      ¬ wedgeAccept (stream idx) →
      ZigSample stream (idx + 1) idx' v →
      ZigSample stream idx idx' v

/-- The word 1649267376255 indexes rectangle 127 with `r = 0x7fffff00`, which
misses the rectangle, and its auxiliary canonical draw is large enough that
the wedge test fails by a factor of two, so the sampler consumes a second
outer word. -/
lemma wedge_reject_word : ¬ wedgeAccept 1649267376255 := by
  have hidx : zigIndex 1649267376255 = 127 := by decide
  have hr : zigR 1649267376255 = 2147483392 := by decide
  have hs : xoshiroStream (xoshiroSeedState 1649267376255) 0 >>> 11 = 8901113763178975 := by
    decide
  have hw : auxCanon 1649267376255 0 = ((8901113763178975 : ℕ) : ℚ) * (1 / 2 ^ 53) := by
    unfold auxCanon float64Q
    rw [hs]
  have hx : zigX 1649267376255 = ((2147483392 : ℤ) : ℚ) * (1.6030948e-09 : ℚ) := by
    unfold zigX
    rw [hidx, hr, show WN 127 = (1.6030948e-09 : ℚ) from rfl]
  unfold wedgeAccept
  rw [not_lt]
  have hq1 : (5.92 : ℚ) ≤ 2⁻¹ * (zigX 1649267376255 * zigX 1649267376255) := by
    rw [hx]
    norm_num
  have hq2 : (1 / 182 : ℚ) < FN (zigIndex 1649267376255) +
      auxCanon 1649267376255 0 *
        (FN (zigIndex 1649267376255 - 1) - FN (zigIndex 1649267376255)) := by
    rw [hidx, hw, show (127 : ℕ) - 1 = 126 from rfl,
      show FN 127 = (0.0026696292 : ℚ) from rfl, show FN 126 = (0.005548995 : ℚ) from rfl]
    norm_num
  have hx2 : (-0.5 : ℝ) * ((zigX 1649267376255 : ℚ) : ℝ) * ((zigX 1649267376255 : ℚ) : ℝ) ≤
      -5.92 := by
    have hc : ((5.92 : ℚ) : ℝ) ≤ ((2⁻¹ * (zigX 1649267376255 * zigX 1649267376255) : ℚ) : ℝ) :=
      Rat.cast_le.2 hq1
    push_cast at hc
    nlinarith [hc]
  have h1 : Real.exp ((-0.5 : ℝ) * ((zigX 1649267376255 : ℚ) : ℝ) * ((zigX 1649267376255 : ℚ) : ℝ)) ≤
      Real.exp (-5.92 : ℝ) := Real.exp_le_exp.2 hx2
  have h2 : Real.exp (-5.92 : ℝ) ≤ (182 : ℝ)⁻¹ := by
    rw [Real.exp_neg]
    have hb : (1.185 : ℝ) ≤ Real.exp 0.185 := by
      have := Real.add_one_le_exp (0.185 : ℝ)
      linarith
    have he : (1.185 : ℝ) ^ (32 : ℕ) ≤ Real.exp 5.92 := by
      calc (1.185 : ℝ) ^ (32 : ℕ) ≤ (Real.exp 0.185) ^ (32 : ℕ) :=
            pow_le_pow_left₀ (by norm_num) hb 32
        _ = Real.exp ((32 : ℕ) * 0.185) := (Real.exp_nat_mul _ _).symm
        _ = Real.exp 5.92 := by norm_num
    have hpos : (0 : ℝ) < (1.185 : ℝ) ^ (32 : ℕ) := by positivity
    calc (Real.exp 5.92)⁻¹ ≤ ((1.185 : ℝ) ^ (32 : ℕ))⁻¹ := inv_anti₀ hpos he
      _ ≤ (182 : ℝ)⁻¹ := inv_anti₀ (by norm_num) (by norm_num)
  have h3 : (182 : ℝ)⁻¹ ≤ ((FN (zigIndex 1649267376255) +
      auxCanon 1649267376255 0 *
        (FN (zigIndex 1649267376255 - 1) - FN (zigIndex 1649267376255)) : ℚ) : ℝ) := by
    have hc := Rat.cast_lt (K := ℝ) |>.2 hq2
    push_cast at hc
    push_cast
    linarith
  linarith

/-- Counterexample to C5: the Ziggurat sampler does not always consume
exactly one outer word per accepted sample.  On the stream whose first word
is 1649267376255 (wedge branch, test fails) and whose second word is 2
(rectangle hit), one sample consumes two outer words. -/
theorem C5_counterexample :
    ¬ (∀ (stream : ℕ → ℕ) (idx idx' : ℕ) (v : ℝ),
        ZigSample stream idx idx' v → idx' = idx + 1) := by
  intro h
  have hz : ZigSample (fun n => if n = 0 then 1649267376255 else 2) 0 2
      ((zigX ((fun n : ℕ => if n = 0 then 1649267376255 else 2) 1) : ℚ) : ℝ) := by
    refine ZigSample.wedgeReject 0 2 _ (by decide) (by decide) ?_ ?_
    · exact wedge_reject_word
    · exact ZigSample.rect 1 (by decide)
  have := h _ _ _ _ hz
  omega

/-- C5 amended: the Ziggurat sampler consumes at least one outer word per
accepted sample, exactly one outer word per iteration of its rejection loop:
in particular exactly one when the first word hits its rectangle or falls in
the tail — the tail branch and the wedge test resolve entirely from the
transient auxiliary generator seeded with that word — while each failed wedge
test consumes one additional outer word before retrying. -/
theorem C5_amended_consumption (stream : ℕ → ℕ) (idx idx' : ℕ) (v : ℝ)
    (h : ZigSample stream idx idx' v) :
    idx < idx' ∧
    ((rectangleHit (stream idx) ∨ zigIndex (stream idx) = 0) → idx' = idx + 1) := by
  induction h with
  | rect i hr => exact ⟨by omega, fun _ => rfl⟩
  | tail i t h1 h2 h3 h4 => exact ⟨by omega, fun _ => rfl⟩
  | wedge i h1 h2 h3 => exact ⟨by omega, fun _ => rfl⟩
  | wedgeReject i i' v h1 h2 h3 hrec ih =>
    refine ⟨by omega, fun hcase => ?_⟩
    rcases hcase with hr | h0
    · exact absurd hr h1
    · exact absurd h0 h2

/-- Witness for the amended C5 at a concrete rectangle-hit word. -/
theorem C5_amended_consumption_witness :
    (0 : ℕ) < 1 ∧
    ((rectangleHit ((fun _ : ℕ => 2) 0) ∨ zigIndex ((fun _ : ℕ => 2) 0) = 0) →
      (1 : ℕ) = 0 + 1) :=
  C5_amended_consumption (fun _ => 2) 0 1 ((zigX ((fun _ : ℕ => 2) 0) : ℚ) : ℝ)
    (ZigSample.rect 0 (by decide))

/-! ### Sample supports (C6) -/

/-- `UniformRealDistribution<double>::operator()` over a 64-bit engine
(src/src/uniform.h lines 225-243): `float64(urng()) * (b - a) + a`. -/
def uniformRealSample (a b : ℚ) (w : ℕ) : ℚ := float64Q w * (b - a) + a

/-- `ExponentialDistribution<double>::operator()` (src/src/exponential.h):
`-log(1 - float64(urng())) / lambda`. -/
noncomputable def exponentialSample (lam : ℚ) (w : ℕ) : ℝ :=
  -Real.log (1 - ((float64Q w : ℚ) : ℝ)) / ((lam : ℚ) : ℝ)

lemma float64Q_nonneg (x : ℕ) : 0 ≤ float64Q x := by
  unfold float64Q
  positivity

lemma float64Q_le (x : ℕ) (hx : x < 2 ^ 64) : float64Q x ≤ 1 - 1 / 2 ^ 53 := by
  unfold float64Q
  have h : x >>> 11 ≤ 2 ^ 53 - 1 := by
    rw [Nat.shiftRight_eq_div_pow]
    omega
  have hq : ((x >>> 11 : ℕ) : ℚ) ≤ ((2 ^ 53 - 1 : ℕ) : ℚ) := Nat.cast_le.2 h
  push_cast at hq
  nlinarith [hq]

lemma float64Q_lt_one (x : ℕ) (hx : x < 2 ^ 64) : float64Q x < 1 := by
  have := float64Q_le x hx
  nlinarith [this]

lemma xoshiroStream_lt (s : Xoshiro) (n : ℕ) : xoshiroStream s n < 2 ^ 64 := by
  unfold xoshiroStream xoshiroNext
  exact Nat.mod_lt _ (by norm_num [W64])

/-- Adding the unsigned image of `a` to an in-range offset and reducing mod
`2^64` recovers `a + l` through the signed conversion: the composite
`uc_type(l) + a()` of the source. -/
lemma toInt64_add (a : ℤ) (l : ℕ) (ha : -2 ^ 63 ≤ a) (hl : a + l < 2 ^ 63) :
    toInt64 ((l + uint64OfInt a) % 2 ^ 64) = a + l := by
  unfold toInt64 uint64OfInt
  split <;> rename_i h <;> omega

/-- An accepted Lemire draw is below `range`: the returned high 64 bits of
`word * range` with `word < 2^64`. -/
lemma lemiresAux_some_lt (stream : ℕ → ℕ) (range threshold : ℕ) (hr : 0 < range)
    (hstream : ∀ n, stream n < 2 ^ 64) :
    ∀ (fuel idx l idx' : ℕ),
      lemiresAux stream range threshold idx fuel = some (l, idx') → l < range := by
  intro fuel
  induction fuel with
  | zero =>
    intro idx l idx' h
    simp [lemiresAux] at h
  | succ f ih =>
    intro idx l idx' h
    rw [show lemiresAux stream range threshold idx (f + 1) =
        if (stream idx * range) % 2 ^ 64 < threshold then
          lemiresAux stream range threshold (idx + 1) f
        else some ((stream idx * range) >>> 64, idx + 1) from rfl] at h
    split at h
    · exact ih _ _ _ h
    · simp only [Option.some.injEq, Prod.mk.injEq] at h
      obtain ⟨hl, -⟩ := h
      subst hl
      rw [Nat.shiftRight_eq_div_pow]
      exact Nat.div_lt_of_lt_mul
        (Nat.mul_lt_mul_of_lt_of_le (hstream idx) (le_refl range) hr)

/-- Every entry of the `WN` table is nonnegative and at most the first
(largest) entry. -/
lemma WNlist_forall : ∀ q ∈ WNlist, 0 ≤ q ∧ q ≤ (1.7290405e-09 : ℚ) := by
  intro q hq
  fin_cases hq <;> exact ⟨by norm_num, by norm_num⟩

lemma WN_bounds (i : ℕ) : 0 ≤ WN i ∧ WN i ≤ (1.7290405e-09 : ℚ) := by
  rcases Nat.lt_or_ge i 128 with h | h
  · have hlen : i < WNlist.length := by
      rw [show WNlist.length = 128 from rfl]
      exact h
    have hm : WN i ∈ WNlist := by
      unfold WN
      rw [List.getD_eq_getElem WNlist 0 hlen]
      exact List.getElem_mem hlen
    exact WNlist_forall _ hm
  · have hz : WN i = 0 :=
      List.getD_eq_default WNlist 0 (by rw [show WNlist.length = 128 from rfl]; omega)
    rw [hz]
    norm_num

lemma zigR_bounds (rand : ℕ) : -2 ^ 31 ≤ zigR rand ∧ zigR rand ≤ 2 ^ 31 := by
  unfold zigR toInt32
  split <;> rename_i h <;> omega

/-- Rectangle and wedge values `r * WN[index]` are small: at most
`2^31 * WN[0] < 4` in magnitude. -/
lemma abs_zigX_le (rand : ℕ) : |zigX rand| ≤ 4 := by
  obtain ⟨h1, h2⟩ := zigR_bounds rand
  obtain ⟨hw0, hw1⟩ := WN_bounds (zigIndex rand)
  unfold zigX
  rw [abs_mul]
  have hzq : |(zigR rand : ℚ)| ≤ 2 ^ 31 := by
    rw [abs_le]
    constructor
    · exact_mod_cast h1
    · exact_mod_cast h2
  have hwq : |WN (zigIndex rand)| ≤ (1.7290405e-09 : ℚ) := by
    rw [abs_of_nonneg hw0]
    exact hw1
  calc |(zigR rand : ℚ)| * |WN (zigIndex rand)|
      ≤ 2 ^ 31 * (1.7290405e-09 : ℚ) :=
        mul_le_mul hzq hwq (abs_nonneg _) (by norm_num)
    _ ≤ 4 := by norm_num

lemma Rzig_real_bounds : (3.4 : ℝ) ≤ ((Rzig : ℚ) : ℝ) ∧ ((Rzig : ℚ) : ℝ) ≤ 3.45 := by
  constructor <;> norm_num [Rzig]

lemma auxCanon_nonneg (rand n : ℕ) : 0 ≤ auxCanon rand n := float64Q_nonneg _

lemma auxCanon_le (rand n : ℕ) : auxCanon rand n ≤ 1 - 1 / 2 ^ 53 :=
  float64Q_le _ (xoshiroStream_lt _ _)

lemma one_sub_auxCanon_pos (rand n : ℕ) :
    (0 : ℝ) < 1 - ((auxCanon rand n : ℚ) : ℝ) := by
  have h := auxCanon_le rand n
  have hc : ((auxCanon rand n : ℚ) : ℝ) ≤ ((1 - 1 / 2 ^ 53 : ℚ) : ℝ) := Rat.cast_le.2 h
  push_cast at hc
  nlinarith [hc]

lemma one_sub_auxCanon_ge (rand n : ℕ) :
    ((2 : ℝ) ^ 53)⁻¹ ≤ 1 - ((auxCanon rand n : ℚ) : ℝ) := by
  have h := auxCanon_le rand n
  have hc : ((auxCanon rand n : ℚ) : ℝ) ≤ ((1 - 1 / 2 ^ 53 : ℚ) : ℝ) := Rat.cast_le.2 h
  push_cast at hc
  rw [inv_eq_one_div]
  linarith

/-- The tail abscissa `-log1p(-canonical(rng)) / R` is nonnegative and, since
a canonical draw is at most `1 - 2^-53`, at most `53 log 2 / R < 11`. -/
lemma tailXX_bounds (rand t : ℕ) : 0 ≤ tailXX rand t ∧ tailXX rand t ≤ 11 := by
  obtain ⟨hR1, hR2⟩ := Rzig_real_bounds
  have hpos := one_sub_auxCanon_pos rand (2 * t)
  have hge := one_sub_auxCanon_ge rand (2 * t)
  unfold tailXX
  have hc0 : (0 : ℝ) ≤ ((auxCanon rand (2 * t) : ℚ) : ℝ) := by
    have := auxCanon_nonneg rand (2 * t)
    exact_mod_cast this
  have hlog0 : Real.log (1 - ((auxCanon rand (2 * t) : ℚ) : ℝ)) ≤ 0 :=
    Real.log_nonpos (by linarith) (by linarith)
  have hlogge : Real.log (((2 : ℝ) ^ 53)⁻¹) ≤
      Real.log (1 - ((auxCanon rand (2 * t) : ℚ) : ℝ)) :=
    Real.log_le_log (by positivity) hge
  have hlogval : Real.log (((2 : ℝ) ^ 53)⁻¹) = -(53 * Real.log 2) := by
    rw [Real.log_inv, Real.log_pow]
    push_cast
    ring
  have hlog2 := Real.log_two_lt_d9
  constructor
  · exact div_nonneg (by linarith) (by linarith)
  · rw [div_le_iff₀ (by linarith)]
    rw [hlogval] at hlogge
    nlinarith [hlog2, hlogge, hR1]

lemma abs_tailVal_le (rand t : ℕ) : |tailVal rand t| ≤ 16 := by
  obtain ⟨hR1, hR2⟩ := Rzig_real_bounds
  obtain ⟨hx0, hx1⟩ := tailXX_bounds rand t
  unfold tailVal
  split <;> rw [abs_le] <;> constructor <;> linarith

lemma abs_zigX_real_le (rand : ℕ) : |((zigX rand : ℚ) : ℝ)| ≤ 16 := by
  have h := abs_zigX_le rand
  have hc : ((|zigX rand| : ℚ) : ℝ) ≤ ((4 : ℚ) : ℝ) := Rat.cast_le.2 h
  push_cast at hc
  linarith [hc]

/-- Every value produced by the Ziggurat sampler is bounded: rectangle and
wedge values are `r * WN[i]` with `|r| ≤ 2^31`, and tail values are
`±(R + xx)` with `xx ≤ 53 log 2 / R`. -/
lemma zigSample_abs_le {stream : ℕ → ℕ} {idx idx' : ℕ} {v : ℝ}
    (h : ZigSample stream idx idx' v) : |v| ≤ 16 := by
  induction h with
  | rect i hr => exact abs_zigX_real_le _
  | tail i t h1 h2 h3 h4 => exact abs_tailVal_le _ _
  | wedge i h1 h2 h3 => exact abs_zigX_real_le _
  | wedgeReject i i' v h1 h2 h3 hrec ih => exact ih

/-- The Lemire path of the 64-bit `operator()` returns a value in `[a, b]`,
as do the equal-range path (every engine word is in range there). -/
lemma uniformIntOp64_ok_range (a b : ℤ) (hab : a ≤ b) (ha : -2 ^ 63 ≤ a) (hb : b < 2 ^ 63)
    (stream : ℕ → ℕ) (hstream : ∀ n, stream n < 2 ^ 64) (idx fuel : ℕ) (v : ℤ) (c : ℕ)
    (h : uniformIntOp64 a b stream idx fuel = .ok v c) : a ≤ v ∧ v ≤ b := by
  unfold uniformIntOp64 at h
  split at h
  · rename_i hlt
    rcases hm : lemires stream ((b - a).toNat + 1) idx fuel with - | ⟨l, idx'⟩ <;>
        rw [hm] at h
    · simp at h
    · simp only [UIntOut.ok.injEq] at h
      obtain ⟨hv, -⟩ := h
      have hl : l < (b - a).toNat + 1 :=
        lemiresAux_some_lt stream ((b - a).toNat + 1) _ (by omega) hstream fuel idx l idx' hm
      rw [toInt64_add a l ha (by omega)] at hv
      omega
  · split at h
    · rename_i hne heq
      simp only [UIntOut.ok.injEq] at h
      obtain ⟨hv, -⟩ := h
      have hl : stream idx < 2 ^ 64 := hstream idx
      rw [toInt64_add a (stream idx) ha (by omega)] at hv
      omega
    · simp at h

/-- `UniformIntDistribution<int64>::operator()` over any engine returns a
value in `[a, b]` on every path: Lemire, equal-range, modulo rejection, and
the 32-bit widening path. -/
lemma uniformIntOp_ok_range (urngRange : ℕ) (a b : ℤ) (hab : a ≤ b) (ha : -2 ^ 63 ≤ a)
    (hb : b < 2 ^ 63) (stream : ℕ → ℕ) (hstream : ∀ n, stream n ≤ urngRange)
    (idx fuel : ℕ) (v : ℤ) (c : ℕ)
    (h : uniformIntOp urngRange a b stream idx fuel = .ok v c) : a ≤ v ∧ v ≤ b := by
  unfold uniformIntOp at h
  split at h
  · rename_i h64
    exact uniformIntOp64_ok_range a b hab ha hb stream
      (fun n => by have := hstream n; omega) idx fuel v c h
  · split at h
    · rename_i hne heq
      simp only [UIntOut.ok.injEq] at h
      obtain ⟨hv, -⟩ := h
      have hl : (stream idx : ℤ) ≤ (b - a).toNat := by
        have := hstream idx
        omega
      rw [toInt64_add a (stream idx) ha (by omega)] at hv
      omega
    · split at h
      · rename_i hne heq hlt
        rcases hm : modLoop stream (urngRange - urngRange % ((b - a).toNat + 1)) idx fuel
          with - | ⟨r, idx'⟩ <;> rw [hm] at h
        · simp at h
        · simp only [UIntOut.ok.injEq] at h
          obtain ⟨hv, -⟩ := h
          have hl : r % ((b - a).toNat + 1) < (b - a).toNat + 1 :=
            Nat.mod_lt _ (by omega)
          rw [toInt64_add a (r % ((b - a).toNat + 1)) ha (by omega)] at hv
          omega
      · split at h
        · rename_i hne heq hge h32
          rcases hm : uniformIntOp64 a b
              (xoshiroStream (xoshiroSeedState
                (((stream idx ^^^ stream (idx + 2)) <<< 32) ||| stream (idx + 1)))) 0 fuel
            with ⟨v', c'⟩ | - | - <;> rw [hm] at h
          · simp only [UIntOut.ok.injEq] at h
            obtain ⟨hv, -⟩ := h
            subst hv
            exact uniformIntOp64_ok_range a b hab ha hb _
              (fun n => xoshiroStream_lt _ n) 0 fuel v' c' hm
          · simp at h
          · simp at h
        · simp at h

/-- Counterexample to C6 as stated: with the valid parameters `a = b = 0`
(the source asserts only `a <= b`), the uniform real sample is `a`, which
does not lie in the empty half-open interval `[a, b) = [0, 0)`. -/
theorem C6_counterexample :
    (0 : ℚ) ≤ 0 ∧ uniformRealSample 0 0 12345 = 0 ∧
      ¬ ((0 : ℚ) ≤ uniformRealSample 0 0 12345 ∧ uniformRealSample 0 0 12345 < 0) := by
  have hz : uniformRealSample 0 0 12345 = 0 := by
    simp [uniformRealSample]
  refine ⟨le_refl 0, hz, ?_⟩
  rintro ⟨-, hlt⟩
  rw [hz] at hlt
  exact lt_irrefl 0 hlt

/-- C6 amended: every returned sample lies in the stated support, with the
real support claim restricted to `a < b` (at `a = b` the source still returns
`a`, outside the then-empty interval `[a, b)`). Uniform int samples lie in
`[a, b]` on every path (Lemire, equal-range, modulo rejection, 32-bit
widening); uniform real samples lie in `[a, b)` when `a < b`; exponential
samples are nonnegative; normal (Ziggurat) samples are finite — bounded by 16
in magnitude. -/
theorem C6_amended_support :
    (∀ (urngRange : ℕ) (a b : ℤ) (stream : ℕ → ℕ) (idx fuel : ℕ) (v : ℤ) (c : ℕ),
        a ≤ b → -2 ^ 63 ≤ a → b < 2 ^ 63 → (∀ n, stream n ≤ urngRange) →
        uniformIntOp urngRange a b stream idx fuel = .ok v c → a ≤ v ∧ v ≤ b) ∧
    (∀ (a b : ℚ) (w : ℕ), w < 2 ^ 64 → a < b →
        a ≤ uniformRealSample a b w ∧ uniformRealSample a b w < b) ∧
    (∀ (lam : ℚ) (w : ℕ), 0 < lam → w < 2 ^ 64 → 0 ≤ exponentialSample lam w) ∧
    (∀ (stream : ℕ → ℕ) (idx idx' : ℕ) (v : ℝ),
        ZigSample stream idx idx' v → |v| ≤ 16) := by
  refine ⟨?_, ?_, ?_, ?_⟩
  · intro urngRange a b stream idx fuel v c hab ha hb hstream h
    exact uniformIntOp_ok_range urngRange a b hab ha hb stream hstream idx fuel v c h
  · intro a b w hw hlt
    have h0 := float64Q_nonneg w
    have h1 := float64Q_lt_one w hw
    unfold uniformRealSample
    constructor
    · nlinarith [h0, hlt]
    · nlinarith [h1, hlt]
  · intro lam w hlam hw
    have h0 := float64Q_nonneg w
    have h1 := float64Q_lt_one w hw
    have hc0 : (0 : ℝ) ≤ ((float64Q w : ℚ) : ℝ) := by exact_mod_cast h0
    have hc1 : ((float64Q w : ℚ) : ℝ) < 1 := by exact_mod_cast h1
    have hlog : Real.log (1 - ((float64Q w : ℚ) : ℝ)) ≤ 0 :=
      Real.log_nonpos (by linarith) (by linarith)
    have hlamR : (0 : ℝ) < ((lam : ℚ) : ℝ) := by exact_mod_cast hlam
    exact div_nonneg (by linarith) (le_of_lt hlamR)
  · intro stream idx idx' v h
    exact zigSample_abs_le h

/-- Witness for the amended C6: the uniform real sample at `a = 0`, `b = 1`
and word 12345 lies in `[0, 1)`. -/
theorem C6_amended_support_witness :
    (0 : ℚ) ≤ uniformRealSample 0 1 12345 ∧ uniformRealSample 0 1 12345 < 1 :=
  C6_amended_support.2.1 0 1 12345 (by norm_num) (by norm_num)

/-! ### Textual serialization (C9)

Character-level embedding of the stream operators with decimal formatting:
`ReversibleMersenne::operator<<` writes the 312 state words each followed by
a space and then `pos` (src/src/mersenne.cpp lines 45-60), and
`ReversibleRNG::operator<<` writes the engine, the distribution parameters
and the position, space-separated (src/src/reverse.h lines 122-132, with
`UniformIntDistribution` writing `a` then `b`, src/src/uniform.h lines
105-115).  `operator>>` under `std::ios_base::skipws` skips spaces and reads
maximal decimal tokens, with a leading minus sign for signed fields. -/

/-- Decimal digits of `n`, most significant first, as written by
`operator<<` in `std::ios_base::dec` mode. -/
def natChars (n : ℕ) : List Char :=
  if n = 0 then ['0'] else ((Nat.digits 10 n).map Nat.digitChar).reverse

/-- Decimal form of a signed value: a minus sign followed by the digits of
the magnitude when negative. -/
def intChars (z : ℤ) : List Char :=
  if z < 0 then '-' :: natChars z.natAbs else natChars z.toNat

/-- `std::ios_base::skipws`: discard leading spaces. -/
def skipWs : List Char → List Char
  | [] => []
  | c :: rest => if c = ' ' then skipWs rest else c :: rest

/-- Numeric value of a big-endian digit run, as accumulated by the extraction
operator. -/
def natOfChars (cs : List Char) : ℕ :=
  cs.foldl (fun acc c => 10 * acc + (c.toNat - 48)) 0

/-- `is >> n` for an unsigned field: skip whitespace, read the maximal digit
run, leave the remainder. -/
def readNat (l : List Char) : ℕ × List Char :=
  ((skipWs l).takeWhile Char.isDigit |> natOfChars, (skipWs l).dropWhile Char.isDigit)

/-- Signed token extraction after whitespace has been skipped: an optional
minus sign, then the maximal digit run. -/
def readIntCore : List Char → ℤ × List Char
  | [] => (0, [])
  | c :: rest =>
    if c = '-' then
      (-(natOfChars (rest.takeWhile Char.isDigit) : ℤ), rest.dropWhile Char.isDigit)
    else
      ((natOfChars ((c :: rest).takeWhile Char.isDigit) : ℤ),
        (c :: rest).dropWhile Char.isDigit)

/-- `is >> z` for a signed 64-bit field: skip whitespace, an optional minus
sign, then the maximal digit run. -/
def readInt (l : List Char) : ℤ × List Char :=
  readIntCore (skipWs l)

/-- `n` unsigned fields in sequence, as the extraction loop over the state
array. -/
def readNats : ℕ → List Char → List ℕ × List Char
  | 0, l => ([], l)
  | n + 1, l =>
    let p := readNat l
    let q := readNats n p.2
    (p.1 :: q.1, q.2)

/-- The serialized words of the Mersenne engine loop: each state word
followed by a space. -/
def wordsChars : List ℕ → List Char
  | [] => []
  | w :: ws => natChars w ++ ' ' :: wordsChars ws

/-- `ReversibleMersenne::operator<<`: the 312 state words each followed by a
space, then `pos`. -/
def mtFormat (m : MT) : List Char :=
  wordsChars (List.ofFn fun i : Fin 312 => m.state i) ++ natChars m.pos

/-- `ReversibleMersenne::operator>>`: 312 words, then `pos`. -/
def mtParse (l : List Char) : MT × List Char :=
  let p := readNats 312 l
  let q := readNat p.2
  (⟨fun i => p.1.getD i 0, q.1⟩, q.2)

/-- A composite `ReversibleRNG<UniformIntDistribution<int64>,
ReversibleMersenne>`: engine, the two signed distribution parameters, and the
signed position (src/src/reverse.h lines 143-149). -/
structure RNGIntMT where
  engine : MT
  a : ℤ
  b : ℤ
  position : ℤ

/-- `ReversibleRNG::operator<<`: engine, space, distribution (`a` space `b`),
space, position. -/
def rngFormat (g : RNGIntMT) : List Char :=
  mtFormat g.engine ++ ' ' :: intChars g.a ++ ' ' :: intChars g.b ++
    ' ' :: intChars g.position

/-- `ReversibleRNG::operator>>`: engine, then the two distribution
parameters, then the position. -/
def rngParse (l : List Char) : RNGIntMT × List Char :=
  let p := mtParse l
  let qa := readInt p.2
  let qb := readInt qa.2
  let qp := readInt qb.2
  (⟨p.1, qa.1, qb.1, qp.1⟩, qp.2)

/-- The next character is not a digit (or the input is exhausted): the
boundary at which a maximal digit run ends. -/
def headNotDigit : List Char → Prop
  | [] => True
  | c :: _ => c.isDigit = false

lemma digitChar_isDigit (d : ℕ) (h : d < 10) : (Nat.digitChar d).isDigit = true := by
  interval_cases d <;> decide

lemma digitVal_digitChar (d : ℕ) (h : d < 10) : (Nat.digitChar d).toNat - 48 = d := by
  interval_cases d <;> decide

lemma natChars_ne_nil (n : ℕ) : natChars n ≠ [] := by
  unfold natChars
  split
  · simp
  · rename_i h
    simp only [ne_eq, List.reverse_eq_nil_iff, List.map_eq_nil_iff]
    exact Nat.digits_ne_nil_iff_ne_zero.2 h

lemma natChars_all_digits (n : ℕ) : ∀ c ∈ natChars n, c.isDigit = true := by
  unfold natChars
  split
  · intro c hc
    simp only [List.mem_singleton] at hc
    subst hc
    decide
  · intro c hc
    simp only [List.mem_reverse, List.mem_map] at hc
    obtain ⟨d, hd, hdc⟩ := hc
    subst hdc
    exact digitChar_isDigit d (Nat.digits_lt_base (by norm_num) hd)

/-- Value of the digit run of `n`: folding the reversed digit characters
recovers `n` via `Nat.ofDigits`. -/
lemma natOfChars_digits (ds : List ℕ) (h : ∀ d ∈ ds, d < 10) :
    natOfChars ((ds.map Nat.digitChar).reverse) = Nat.ofDigits 10 ds := by
  induction ds with
  | nil => rfl
  | cons d ds ih =>
    have hd : d < 10 := h d (List.mem_cons_self d ds)
    have hds : ∀ x ∈ ds, x < 10 := fun x hx => h x (List.mem_cons_of_mem d hx)
    rw [List.map_cons, List.reverse_cons]
    unfold natOfChars
    rw [List.foldl_append]
    have hfold : (ds.map Nat.digitChar).reverse.foldl
        (fun acc c => 10 * acc + (c.toNat - 48)) 0 = Nat.ofDigits 10 ds := ih hds
    unfold natOfChars at hfold
    rw [hfold, List.foldl_cons, List.foldl_nil, digitVal_digitChar d hd,
      Nat.ofDigits_cons]
    ring

lemma natOfChars_natChars (n : ℕ) : natOfChars (natChars n) = n := by
  unfold natChars
  split
  · rename_i h
    subst h
    rfl
  · rw [natOfChars_digits (Nat.digits 10 n)
      (fun d hd => Nat.digits_lt_base (by norm_num) hd)]
    exact Nat.ofDigits_digits 10 n

lemma headNotDigit_space (l : List Char) : headNotDigit (' ' :: l) := by
  show (' ' : Char).isDigit = false
  decide

lemma skipWs_cons_space (l : List Char) : skipWs (' ' :: l) = skipWs l := by
  simp [skipWs]

lemma skipWs_no_space (c : Char) (l : List Char) (h : c ≠ ' ') :
    skipWs (c :: l) = c :: l := by
  simp [skipWs, h]

/-- A maximal digit run: taking digits from an all-digit token followed by a
non-digit boundary yields exactly the token. -/
lemma takeWhile_digits (l1 l2 : List Char) (h1 : ∀ c ∈ l1, c.isDigit = true)
    (h2 : headNotDigit l2) :
    (l1 ++ l2).takeWhile Char.isDigit = l1 ∧
      (l1 ++ l2).dropWhile Char.isDigit = l2 := by
  induction l1 with
  | nil =>
    simp only [List.nil_append]
    cases l2 with
    | nil => exact ⟨rfl, rfl⟩
    | cons c t =>
      have hc : c.isDigit = false := h2
      rw [List.takeWhile_cons, List.dropWhile_cons, hc]
      exact ⟨by simp, by simp⟩
  | cons c t ih =>
    have hc : c.isDigit = true := h1 c (List.mem_cons_self c t)
    have ht := ih fun x hx => h1 x (List.mem_cons_of_mem c hx)
    rw [List.cons_append, List.takeWhile_cons, List.dropWhile_cons, hc]
    refine ⟨?_, ?_⟩
    · simp only [if_true]
      rw [ht.1]
    · simp only [if_true]
      exact ht.2

lemma readNat_append (n : ℕ) (rest : List Char) (h : headNotDigit rest) :
    readNat (natChars n ++ rest) = (n, rest) := by
  obtain ⟨c, t, hct⟩ : ∃ c t, natChars n = c :: t := by
    cases hnc : natChars n with
    | nil => exact absurd hnc (natChars_ne_nil n)
    | cons c t => exact ⟨c, t, rfl⟩
  have hcdig : c.isDigit = true := by
    apply natChars_all_digits n
    rw [hct]
    exact List.mem_cons_self c t
  have hcs : c ≠ ' ' := by
    intro he
    rw [he] at hcdig
    exact absurd hcdig (by decide)
  have hskip : skipWs (natChars n ++ rest) = natChars n ++ rest := by
    rw [hct, List.cons_append]
    exact skipWs_no_space c _ hcs
  have htw := takeWhile_digits (natChars n) rest (natChars_all_digits n) h
  unfold readNat
  rw [hskip, htw.1, htw.2, natOfChars_natChars]

lemma readNat_space (l : List Char) : readNat (' ' :: l) = readNat l := by
  unfold readNat
  rw [skipWs_cons_space]

lemma readNats_cons_space (k : ℕ) (l : List Char) :
    readNats (k + 1) (' ' :: l) = readNats (k + 1) l := by
  simp only [readNats, readNat_space]

/-- Reading back the word loop of the engine serialization: the trailing
space of the last word is left for the next field's whitespace skip. -/
lemma readNats_wordsChars (ws : List ℕ) (rest : List Char) :
    readNats ws.length (wordsChars ws ++ rest) =
      (ws, if ws = [] then rest else ' ' :: rest) := by
  induction ws generalizing rest with
  | nil => rfl
  | cons w t ih =>
    have hin : wordsChars (w :: t) ++ rest =
        natChars w ++ ' ' :: (wordsChars t ++ rest) := by
      simp [wordsChars]
    rw [hin]
    have hrn : readNat (natChars w ++ ' ' :: (wordsChars t ++ rest)) =
        (w, ' ' :: (wordsChars t ++ rest)) :=
      readNat_append w _ (headNotDigit_space _)
    rw [show (w :: t).length = t.length + 1 from rfl]
    simp only [readNats, hrn]
    cases t with
    | nil => simp [readNats, wordsChars]
    | cons w' t' =>
      rw [show (w' :: t').length = t'.length + 1 from rfl, readNats_cons_space,
        show t'.length + 1 = (w' :: t').length from rfl, ih]
      simp

lemma mtParse_mtFormat (m : MT) (rest : List Char) (h : headNotDigit rest) :
    mtParse (mtFormat m ++ rest) = (m, rest) := by
  obtain ⟨st, pos⟩ := m
  unfold mtParse mtFormat
  rw [List.append_assoc]
  have hlen : (List.ofFn fun i : Fin 312 =>
      (MT.mk st pos).state i).length = 312 := List.length_ofFn _
  have hne : (List.ofFn fun i : Fin 312 => (MT.mk st pos).state i) ≠ [] := by
    intro hh
    rw [hh] at hlen
    simp at hlen
  have hws := readNats_wordsChars (List.ofFn fun i : Fin 312 => (MT.mk st pos).state i)
      (natChars (MT.mk st pos).pos ++ rest)
  rw [hlen, if_neg hne] at hws
  simp only [hws, readNat_space, readNat_append (MT.mk st pos).pos rest h]
  have hst : (fun i : Fin 312 =>
      (List.ofFn fun j : Fin 312 => (MT.mk st pos).state j).getD i 0) = st := by
    funext i
    rw [List.getD_eq_getElem _ _ (by rw [List.length_ofFn]; exact i.isLt)]
    rw [List.getElem_ofFn]
  rw [hst]

lemma readInt_space (l : List Char) : readInt (' ' :: l) = readInt l := by
  unfold readInt
  rw [skipWs_cons_space]

lemma readInt_append (z : ℤ) (rest : List Char) (h : headNotDigit rest) :
    readInt (intChars z ++ rest) = (z, rest) := by
  unfold intChars
  split
  · rename_i hneg
    rw [List.cons_append]
    unfold readInt
    rw [skipWs_no_space '-' _ (by decide)]
    have htw := takeWhile_digits (natChars z.natAbs) rest (natChars_all_digits _) h
    simp [readIntCore, htw.1, htw.2, natOfChars_natChars]
    rw [abs_of_neg hneg]
    exact neg_neg z
  · rename_i hpos
    obtain ⟨c, t, hct⟩ : ∃ c t, natChars z.toNat = c :: t := by
      cases hnc : natChars z.toNat with
      | nil => exact absurd hnc (natChars_ne_nil _)
      | cons c t => exact ⟨c, t, rfl⟩
    have hcdig : c.isDigit = true := by
      apply natChars_all_digits z.toNat
      rw [hct]
      exact List.mem_cons_self c t
    have hcs : c ≠ ' ' := by
      intro he
      rw [he] at hcdig
      exact absurd hcdig (by decide)
    have hcm : c ≠ '-' := by
      intro he
      rw [he] at hcdig
      exact absurd hcdig (by decide)
    have htw := takeWhile_digits (natChars z.toNat) rest (natChars_all_digits _) h
    unfold readInt
    rw [hct, List.cons_append, skipWs_no_space c _ hcs]
    have hz : (z.toNat : ℤ) = z := by omega
    simp only [readIntCore, if_neg hcm, ← List.cons_append, ← hct, htw.1, htw.2,
      natOfChars_natChars, hz]

/-- C9: textual serialization round-trips.  For every state of the
`ReversibleMersenne` engine and every composite
`ReversibleRNG<UniformIntDistribution<int64>, ReversibleMersenne>` state
(312 engine words and engine position, signed distribution bounds `a`, `b`,
and signed call position), parsing the formatted text with `operator>>`
consumes it entirely and yields the identical state. -/
theorem C9_serialization_roundtrip (g : RNGIntMT) (m : MT) :
    rngParse (rngFormat g) = (g, []) ∧ mtParse (mtFormat m) = (m, []) := by
  constructor
  · obtain ⟨me, a, b, p⟩ := g
    unfold rngFormat rngParse
    simp only [List.append_assoc, List.cons_append]
    have h1 := mtParse_mtFormat me
        (' ' :: (intChars a ++ ' ' :: (intChars b ++ ' ' :: intChars p)))
        (headNotDigit_space _)
    have h2 : readInt (' ' :: (intChars a ++ ' ' :: (intChars b ++ ' ' :: intChars p))) =
        (a, ' ' :: (intChars b ++ ' ' :: intChars p)) := by
      rw [readInt_space]
      exact readInt_append a _ (headNotDigit_space _)
    have h3 : readInt (' ' :: (intChars b ++ ' ' :: intChars p)) =
        (b, ' ' :: intChars p) := by
      rw [readInt_space]
      exact readInt_append b _ (headNotDigit_space _)
    have h4 : readInt (' ' :: intChars p) = (p, []) := by
      rw [readInt_space, show intChars p = intChars p ++ [] from by simp]
      exact readInt_append p [] trivial
    simp only [h1, h2, h3, h4]
  · rw [show mtFormat m = mtFormat m ++ [] from by simp]
    exact mtParse_mtFormat m [] trivial

end Reverse
